import Mathlib

/-!
# Verification of the `color-blind` coloring game core

A shallow embedding, over exact rationals `ℚ`, of the geometry kernel, shape
generator, scoring engine and state-machine update of `src/app.tsx`, together
with theorems checking the natural-language specification against it.

Conventions used throughout:

* JavaScript numbers are modelled as `ℚ`.  All arithmetic appearing in the
  embedded code paths is exact in IEEE doubles for the integer-valued inputs
  the claims are about, except division, which is modelled by `JsNum`/`jsDiv`
  below so that division by zero produces `NaN`/`±Infinity` as in JavaScript
  rather than Lean's `0` convention.
* `Math.random()` is modelled as an oracle `ℕ → ℚ` together with a cursor
  index; each call reads the next tape cell.  `Math.floor` is `Int.floor`.
* Mutable arrays become lists; `Array.prototype.sort` (stable, ES2019) becomes
  `List.mergeSort` (also stable, with the same comparator); `splice(i, 0, x)`
  becomes `insertIdx` at the JavaScript-clamped index.
* Canvas 2D contexts are opaque: drawing operations become inert `CanvasOp`
  values, and pixel readbacks (`getImageData().data`) become `List ℕ` buffer
  parameters (flat RGBA, stride 4), supplied by the environment.
-/

namespace ColorBlind

/-- `type Point = { x: number; y: number }` of `app.tsx`. -/
structure Point where
  x : ℚ
  y : ℚ
deriving DecidableEq, Repr

/-- `type Size = { width: number; height: number }` of `app.tsx`. -/
structure Size where
  width : ℚ
  height : ℚ
deriving DecidableEq, Repr

/-- `pointComparator` of `app.tsx`: order by `x` ascending, ties by `y`
ascending; returns `-1`/`+1`/`0` as there. -/
def pointComparator (a b : Point) : ℤ :=
  if a.x < b.x then -1
  else if a.x > b.x then 1
  else if a.y < b.y then -1
  else if a.y > b.y then 1
  else 0

/-- The pop test of `makeHullPresorted`:
`(q.x - r.x) * (p.y - r.y) >= (q.y - r.y) * (p.x - r.x)` with `r` below `q`
on the stack and `p` the incoming candidate point. -/
def hullPopTest (r q p : Point) : Prop :=
  (q.x - r.x) * (p.y - r.y) ≥ (q.y - r.y) * (p.x - r.x)

instance (r q p : Point) : Decidable (hullPopTest r q p) := by
  unfold hullPopTest; infer_instance

/-- The inner `while` loop of `makeHullPresorted`: the stack is kept with its
top as the list head; entries are popped while the stack has at least two
entries and the top two fail the strict-turn test against `p`. -/
def hullPop (p : Point) : List Point → List Point
  | q :: r :: rest =>
    if hullPopTest r q p then hullPop p (r :: rest) else q :: r :: rest
  | l => l

/-- One `for` iteration of the hull scans: run the pop loop, then push `p`. -/
def hullStep (stack : List Point) (p : Point) : List Point :=
  p :: hullPop p stack

/-- A whole hull scan (`upperHull` or `lowerHull` loop) over its input order,
producing the final stack, top first. -/
def hullScan (points : List Point) : List Point :=
  points.foldl hullStep []

/-- `makeHullPresorted` of `app.tsx` (Andrew's monotone chain on presorted
points).  The array form of each chain is the reverse of the scan stack;
`pop()` removes the array's last element, i.e. the stack's head. -/
def makeHullPresorted (points : List Point) : List Point :=
  if points.length ≤ 1 then points
  else
    let upperHull := (hullScan points).tail.reverse
    let lowerHull := (hullScan points.reverse).tail.reverse
    match upperHull, lowerHull with
    | [u], [l] =>
      if u.x = l.x ∧ u.y = l.y then [u] else upperHull ++ lowerHull
    | u, l => u ++ l

/-- `makeLines` of `app.tsx`: pair each vertex with its successor, the last
vertex closing back to the first (the code patches `lines[n-1][1] = start`). -/
def makeLines (points : List Point) : List (Point × Point) :=
  match points with
  | [] => []
  | start :: rest => points.zip (rest ++ [start])

/-- `nearBy` of `app.tsx`: square proximity test, strict on both axes. -/
def nearBy (a b : Point) (range : ℚ) : Bool :=
  let distX := |b.x - a.x|
  let distY := |b.y - a.y|
  decide (distY < range ∧ distX < range)

/-- `intersects` of `app.tsx` (the Stack Overflow parametric segment test):
segment 1 is `(a,b)–(c,d)`, segment 2 is `(p,q)–(r,s)`. -/
def intersects (a b c d p q r s : ℚ) : Bool :=
  let det := (c - a) * (s - q) - (r - p) * (d - b)
  if det = 0 then false
  else
    let lambda := ((s - q) * (r - a) + (p - r) * (s - b)) / det
    let gamma := ((b - d) * (r - a) + (c - a) * (s - b)) / det
    decide (0 < lambda ∧ lambda < 1 ∧ 0 < gamma ∧ gamma < 1)

/-- `getLineWidthForCanvasSize` of `app.tsx`. -/
def getLineWidthForCanvasSize (canvasViewSize : Size) : ℚ :=
  let m := min canvasViewSize.width canvasViewSize.height
  if m > 1000 then 20
  else if m > 500 then 15
  else 10

/-- `type Shape = { points: Point[] }` of `app.tsx`. -/
structure Shape where
  points : List Point
deriving DecidableEq, Repr

/-- The `Math.random()` oracle: an infinite tape of samples, read in call
order via a cursor index. -/
abbrev Rand := ℕ → ℚ

/-- The oracle is a faithful model of `Math.random()` when every sample lies
in `[0, 1)`. -/
def RandInRange (rand : Rand) : Prop :=
  ∀ n, 0 ≤ rand n ∧ rand n < 1

/-- `makeRandomPoint` of `app.tsx`; consumes two oracle samples (`x` first)
and returns the advanced cursor. -/
def makeRandomPoint (viewPort : Size) (rand : Rand) (k : ℕ) : Point × ℕ :=
  ({ x := (⌊rand k * (viewPort.width - 20)⌋ : ℚ) + 10,
     y := (⌊rand (k + 1) * (viewPort.height - 20)⌋ : ℚ) + 10 }, k + 2)

/-- The point-sampling `for` loop of `makeRandomShape`. -/
def makeRandomPoints (viewPort : Size) (rand : Rand) (k : ℕ) :
    ℕ → List Point × ℕ
  | 0 => ([], k)
  | n + 1 =>
    let pk := makeRandomPoint viewPort rand k
    let psk := makeRandomPoints viewPort rand pk.2 n
    (pk.1 :: psk.1, psk.2)

/-- `Array.prototype.splice(i, 0, x)` index clamping: a negative index counts
from the end (bounded below by `0`), an index past the end inserts at the
end. -/
def spliceIdx (len : ℕ) (i : ℤ) : ℕ :=
  if i < 0 then (len + i).toNat else min i.toNat len

/-- `hull.splice(i, 0, x)` of `makeRandomShape`. -/
def splice (l : List Point) (i : ℤ) (x : Point) : List Point :=
  l.insertIdx (spliceIdx l.length i) x

/-- The self-intersection validation of `makeRandomShape`: `lines.some(line =>
lines.some(l => intersects(...)))` — every ordered pair, self pairs
included. -/
def linesIntersectCheck (lines : List (Point × Point)) : Bool :=
  lines.any fun line => lines.any fun l =>
    intersects line.1.x line.1.y line.2.x line.2.y l.1.x l.1.y l.2.x l.2.y

/-- The proximity validation of `makeRandomShape`: `points.some(a =>
points.some(b => a !== b && nearBy(a, b, range)))`.  JavaScript's reference
inequality `a !== b` between the (pairwise-distinct) vertex objects is
position inequality, modelled by indexing via `enum`. -/
def nearByCheck (points : List Point) (range : ℚ) : Bool :=
  points.enum.any fun a => points.enum.any fun b =>
    decide (a.1 ≠ b.1) && nearBy a.2 b.2 range

/-- One generation attempt of `makeRandomShape` (everything before the two
validation checks): sample `10–15` points, sort, take the hull, build and
sort the two notch points, and splice them in at the two random indices
(both drawn against the pre-splice hull length).  Returns the candidate
vertex list and the advanced oracle cursor. -/
def makeShapeAttempt (viewPort : Size) (rand : Rand) (k : ℕ) :
    List Point × ℕ :=
  let count := (10 + ⌊rand k * 6⌋).toNat
  let rpk := makeRandomPoints viewPort rand (k + 1) count
  let hull := makeHullPresorted
    (rpk.1.mergeSort fun a b => decide (pointComparator a b ≤ 0))
  let innerView : Size := ⟨viewPort.width / 4, viewPort.height / 4⟩
  let n₀k := makeRandomPoint innerView rand rpk.2
  let n₁k := makeRandomPoint innerView rand n₀k.2
  let q₀ : Point :=
    ⟨n₀k.1.x + innerView.width * (3 / 4),
      n₀k.1.y + innerView.height * (3 / 4)⟩
  let q₁ : Point :=
    ⟨n₁k.1.x + innerView.width * (5 / 4),
      n₁k.1.y + innerView.height * (5 / 4)⟩
  let tb := if pointComparator q₀ q₁ ≤ 0 then (q₀, q₁) else (q₁, q₀)
  let a := ⌊rand n₁k.2 * ((hull.length : ℚ) / 2)⌋
  let b := ⌊rand (n₁k.2 + 1) * ((hull.length : ℚ) / 2) +
    (hull.length : ℚ) / 2⌋
  (splice (splice hull a tb.1) b tb.2, n₁k.2 + 2)

/-- `makeRandomShape` of `app.tsx`.  The unbounded recursive rejection loop is
modelled with explicit `fuel`; `none` means the real code would still be
retrying after `fuel` attempts. -/
def makeRandomShape (viewPort : Size) (rand : Rand) :
    ℕ → ℕ → Option Shape
  | _, 0 => none
  | k, fuel + 1 =>
    let pk := makeShapeAttempt viewPort rand k
    let lines := makeLines pk.1
    if linesIntersectCheck lines then makeRandomShape viewPort rand pk.2 fuel
    else
      let range := min viewPort.width viewPort.height / 10
      if nearByCheck pk.1 range then makeRandomShape viewPort rand pk.2 fuel
      else some ⟨pk.1⟩

/-! ## JavaScript division and the score formula -/

/-- A JavaScript `number` as produced by the score division: finite, `NaN`,
or a signed infinity. -/
inductive JsNum where
  | num (q : ℚ)
  | nan
  | inf (pos : Bool)
deriving DecidableEq, Repr

/-- JavaScript division: finite quotients are exact here (the score operands
are integers and the claims' instances are exactly representable); a zero
denominator yields `NaN` for `0 / 0` and a signed infinity otherwise. -/
def jsDiv (a b : ℚ) : JsNum :=
  if b = 0 then
    if a = 0 then .nan else if 0 < a then .inf true else .inf false
  else .num (a / b)

/-- The score expression of `end_game` and of the `game-over` view:
`(100 * pixelsFilled - pixelsOverfilled) / (pixelsFilled +
pixelsUnderFilled)`. -/
def gameOverScore (pixelsFilled pixelsOverfilled pixelsUnderFilled : ℕ) :
    JsNum :=
  jsDiv (100 * (pixelsFilled : ℚ) - (pixelsOverfilled : ℚ))
    ((pixelsFilled : ℚ) + (pixelsUnderFilled : ℚ))

/-! ## The scoring passes of `end_game`

Pixel buffers (`getImageData().data`) are flat RGBA byte lists, stride 4;
the loops below read the red channel of every pixel exactly as the
`for (let i = 0; i < data.length; i += 4)` loops do. -/

/-- The marker value `gray = 170` (red channel of the `#aaa` stroke color). -/
def gray : ℕ := 170

/-- The overfill pass of `end_game`: count pixels of the overlaid scratch
surface whose red channel still equals `gray`. -/
def overfillCount (pixels : List ℕ) : ℕ :=
  match pixels with
  | [] => 0
  | p :: rest =>
    (if p = gray then 1 else 0) + overfillCount (rest.drop 3)
termination_by pixels.length
decreasing_by simp [List.length_drop]; omega

/-- The fill/underfill pass of `end_game`: for every mask pixel
(`fillData[i] === 255`), classify by the stroke layer (`drawData[i] === gray`
→ filled, else underfilled).  Reading past the end of `drawData` gives
JavaScript `undefined`, which compares unequal to `gray`. -/
def countFillLoop (fillData drawData : List ℕ) : ℕ × ℕ :=
  match fillData with
  | [] => (0, 0)
  | f :: ftail =>
    let rest := countFillLoop (ftail.drop 3) (drawData.drop 4)
    if f ≠ 255 then rest
    else if drawData.head? = some gray then (rest.1 + 1, rest.2)
    else (rest.1, rest.2 + 1)
termination_by fillData.length
decreasing_by simp [List.length_drop]; omega

/-- The number of mask pixels (red channel `255` at stride-4 positions) of a
buffer: the polygon's rasterized interior area. -/
def maskCount (fillData : List ℕ) : ℕ :=
  match fillData with
  | [] => 0
  | f :: ftail =>
    (if f = 255 then 1 else 0) + maskCount (ftail.drop 3)
termination_by fillData.length
decreasing_by simp [List.length_drop]; omega

/-! ## The stroke renderer `drawPoints`

Canvas 2D calls are recorded as inert operations.  Reading a missing array
element (`points[0]` of an empty array, then dereferencing `.x`) is a
JavaScript `TypeError`; such reads are modelled with `Option`, `none`
standing for the crash. -/

/-- An inert canvas-path operation. -/
inductive CanvasOp where
  | arc (center : Point) (radius : ℚ)
  | moveTo (p : Point)
  | quadraticCurveTo (control target : Point)
  | strokePath
  | fillPath
deriving DecidableEq, Repr

/-- The smoothing loop of `drawPoints` from index `i`: midpoint quadratics
while `i < points.length - 2`, then the final
`quadraticCurveTo(points[i], points[i+1])`.  Every element access is checked:
`none` models an out-of-bounds read. -/
def drawPointsLoop (points : List Point) (i : ℕ) :
    Option (List CanvasOp) :=
  if _h : i < points.length - 2 then
    match points[i]?, points[i + 1]? with
    | some pi, some pj =>
      (CanvasOp.quadraticCurveTo pi ⟨(pi.x + pj.x) / 2, (pi.y + pj.y) / 2⟩
        :: ·) <$> drawPointsLoop points (i + 1)
    | _, _ => none
  else
    match points[i]?, points[i + 1]? with
    | some pi, some pj => some [.quadraticCurveTo pi pj, .strokePath]
    | _, _ => none
termination_by points.length - i
decreasing_by omega

/-- `drawPoints` of `app.tsx`: fewer than 3 points draws a disc of radius
`lineWidth / 2` at `points[0]` (a crash when the list is empty); otherwise a
smoothed path through the points.  The ambient `ctx.lineWidth` set by the
caller is passed explicitly. -/
def drawPoints (lineWidth : ℚ) (points : List Point) :
    Option (List CanvasOp) :=
  if points.length < 3 then
    match points[0]? with
    | none => none
    | some b => some [.arc b (lineWidth / 2), .fillPath]
  else
    match points[0]? with
    | none => none
    | some p₀ => (CanvasOp.moveTo p₀ :: ·) <$> drawPointsLoop points 1

/-! ## The session state machine

Only the message cases the claims are about are embedded: `window_resize`,
`canvas_draw`, `canvas_draw_end` (in `update`), and `end_game` (as
`endGameUpdate`, with the three canvas readbacks as buffer parameters).
DOM-supplied quantities — `window.devicePixelRatio` and the background
canvas's `getBoundingClientRect()` offset — are oracle parameters; the
canvas element and its 2D context being mounted are modelled by the
`backgroundRect`/`backgroundCtx` fields exactly as the code tests them. -/

/-- The `page` field of the model. -/
inductive Page where
  | home
  | game
  | gameOver
deriving DecidableEq, Repr

/-- The claim-relevant fields of `Model` of `app.tsx`.  `backgroundRect` is
`some (left, top)` when `backgroundCanvasElement` is mounted (its bounding
rectangle offset); `backgroundCtx` says whether the 2D context is set. -/
structure Model where
  page : Page
  shape : Shape
  windowSize : Size
  canvasSize : Size
  canvasViewSize : Size
  shapeDrawAreaSize : Size
  drawPointBuffer : List Point
  backgroundRect : Option (ℚ × ℚ)
  backgroundCtx : Bool
  pixelsFilled : ℕ
  pixelsOverfilled : ℕ
  pixelsUnderFilled : ℕ
deriving DecidableEq, Repr

/-- The embedded messages. -/
inductive Msg where
  | window_resize (width height : ℚ)
  | canvas_draw (windowX windowY : ℚ)
  | canvas_draw_end
deriving DecidableEq, Repr

/-- An effect returned by `update`: the deferred thunk that sets
`ctx.lineWidth` and calls `drawPoints` on the given list. -/
inductive Eff where
  | drawStroke (lineWidth : ℚ) (points : List Point)
deriving DecidableEq, Repr

/-- `update` of `app.tsx`, restricted to the three embedded messages.
`none` models a crash (`canvas_draw` with no mounted background canvas) or a
`makeRandomShape` retry loop still running after `fuel` attempts; otherwise
the new model and the returned effects. -/
def update (dpr : ℚ) (rand : Rand) (k fuel : ℕ) (msg : Msg)
    (model : Model) : Option (Model × List Eff) :=
  match msg with
  | .window_resize width height =>
    if model.page = .game then some (model, [])
    else
      let framePadding : ℚ := 20
      let reservedBottom : ℚ := 70
      let frameWidth := width - framePadding * 2
      let frameHeight := height - framePadding * 2 - reservedBottom
      let widthLarger := width > height
      let canvasSize : Size :=
        if widthLarger then
          ⟨frameWidth, min frameHeight ((⌊frameWidth / (3 / 2)⌋ : ℤ) : ℚ)⟩
        else
          ⟨min frameWidth ((⌊frameHeight / (3 / 2)⌋ : ℤ) : ℚ), frameHeight⟩
      let canvasViewSize : Size :=
        ⟨canvasSize.width * dpr, canvasSize.height * dpr⟩
      let shapeDrawAreaSize : Size :=
        ⟨canvasViewSize.width, canvasViewSize.height - 60⟩
      let shape? :=
        if model.shape.points.length ≠ 0 then some model.shape
        else makeRandomShape shapeDrawAreaSize rand k fuel
      match shape? with
      | none => none
      | some shape =>
        some ({ model with
                  shape := shape
                  windowSize := ⟨width, height⟩
                  canvasSize := canvasSize
                  canvasViewSize := canvasViewSize
                  shapeDrawAreaSize := shapeDrawAreaSize }, [])
  | .canvas_draw windowX windowY =>
    match model.backgroundRect with
    | none => none
    | some rect =>
      let newPoint : Point :=
        ⟨(windowX - rect.1) * dpr, (windowY - rect.2) * dpr⟩
      if model.drawPointBuffer.length < 5 then
        some ({ model with
                  drawPointBuffer := model.drawPointBuffer ++ [newPoint] },
              [])
      else if !model.backgroundCtx then some (model, [])
      else
        some ({ model with drawPointBuffer := [newPoint] },
          [.drawStroke (2 * getLineWidthForCanvasSize model.canvasViewSize)
              (model.drawPointBuffer ++ [newPoint])])
  | .canvas_draw_end =>
    if model.drawPointBuffer.length = 0 then some (model, [])
    else if !model.backgroundCtx then some (model, [])
    else
      some ({ model with drawPointBuffer := [] },
        [.drawStroke (2 * getLineWidthForCanvasSize model.canvasViewSize)
            model.drawPointBuffer])

/-- The `end_game` case of `update`, with the three pixel readbacks as
parameters: `overPixels` is the scratch surface after the strokes were
overlaid with the filled black polygon (first `getImageData`), `drawData`
the untouched background stroke layer, `fillData` the white interior mask.
Returns the `game-over` model with the three tallies. -/
def endGameUpdate (model : Model) (overPixels drawData fillData : List ℕ) :
    Model :=
  { model with
      page := .gameOver
      pixelsOverfilled := overfillCount overPixels
      pixelsFilled := (countFillLoop fillData drawData).1
      pixelsUnderFilled := (countFillLoop fillData drawData).2 }

/-- The score shown by the `game-over` view (and stamped on the final image
by `end_game`), as a `JsNum`. -/
def viewScore (model : Model) : JsNum :=
  gameOverScore model.pixelsFilled model.pixelsOverfilled
    model.pixelsUnderFilled

/-! ## C6: characterization of `intersects` -/

/-- **C6.** For all eight coordinate arguments, `intersects` returns `false`
when the determinant `(c-a)*(s-q)-(r-p)*(d-b)` is zero (parallel or
degenerate segments), and otherwise returns `true` if and only if both
computed line parameters `lambda` and `gamma` lie strictly between `0` and
`1` (a proper crossing of the open segments). -/
theorem intersects_false_of_det_zero_and_open_param_characterization
    (a b c d p q r s : ℚ) :
    ((c - a) * (s - q) - (r - p) * (d - b) = 0 →
      intersects a b c d p q r s = false) ∧
    ((c - a) * (s - q) - (r - p) * (d - b) ≠ 0 →
      (intersects a b c d p q r s = true ↔
        (0 < ((s - q) * (r - a) + (p - r) * (s - b)) /
              ((c - a) * (s - q) - (r - p) * (d - b)) ∧
          ((s - q) * (r - a) + (p - r) * (s - b)) /
              ((c - a) * (s - q) - (r - p) * (d - b)) < 1 ∧
          0 < ((b - d) * (r - a) + (c - a) * (s - b)) /
              ((c - a) * (s - q) - (r - p) * (d - b)) ∧
          ((b - d) * (r - a) + (c - a) * (s - b)) /
              ((c - a) * (s - q) - (r - p) * (d - b)) < 1))) := by
  constructor
  · intro h
    simp [intersects, h]
  · intro h
    simp only [intersects, if_neg h, decide_eq_true_eq]

/-- Witness for C6 at concrete inputs: parallel segments are rejected, and a
proper crossing is accepted with both parameters strictly inside `(0, 1)`. -/
theorem intersects_false_of_det_zero_and_open_param_characterization_witness :
    intersects 0 0 1 0 0 1 1 1 = false ∧ intersects 0 0 2 2 0 2 2 0 = true :=
  ⟨(intersects_false_of_det_zero_and_open_param_characterization
      0 0 1 0 0 1 1 1).1 (by norm_num),
   ((intersects_false_of_det_zero_and_open_param_characterization
      0 0 2 2 0 2 2 0).2 (by norm_num)).mpr (by norm_num)⟩

/-! ## C7: symmetry of `intersects`, and shared endpoints -/

/-- Sharing the first–first endpoint: `lambda` degenerates to `0`. -/
lemma intersects_shared_ff (a b c d r s : ℚ) :
    intersects a b c d a b r s = false := by
  simp only [intersects]
  split
  · rfl
  · rename_i hdet
    simp only [decide_eq_false_iff_not]
    rintro ⟨h₁, -, -, -⟩
    have hz : (s - b) * (r - a) + (a - r) * (s - b) = 0 := by ring
    rw [hz, zero_div] at h₁
    exact lt_irrefl 0 h₁

/-- Sharing the first–second endpoint: `lambda` degenerates to `0`. -/
lemma intersects_shared_fs (a b c d p q : ℚ) :
    intersects a b c d p q a b = false := by
  simp only [intersects]
  split
  · rfl
  · rename_i hdet
    simp only [decide_eq_false_iff_not]
    rintro ⟨h₁, -, -, -⟩
    have hz : (b - q) * (a - a) + (p - a) * (b - b) = 0 := by ring
    rw [hz, zero_div] at h₁
    exact lt_irrefl 0 h₁

/-- Sharing the second–first endpoint: `gamma` degenerates to `1`. -/
lemma intersects_shared_sf (a b c d r s : ℚ) :
    intersects a b c d c d r s = false := by
  simp only [intersects]
  split
  · rfl
  · rename_i hdet
    simp only [decide_eq_false_iff_not]
    rintro ⟨-, -, -, h₄⟩
    have hz : (b - d) * (r - a) + (c - a) * (s - b) =
        (c - a) * (s - d) - (r - c) * (d - b) := by ring
    rw [hz, div_self hdet] at h₄
    exact lt_irrefl 1 h₄

/-- Sharing the second–second endpoint: `lambda` degenerates to `1`. -/
lemma intersects_shared_ss (a b c d p q : ℚ) :
    intersects a b c d p q c d = false := by
  simp only [intersects]
  split
  · rfl
  · rename_i hdet
    simp only [decide_eq_false_iff_not]
    rintro ⟨-, h₂, -, -⟩
    have hz : (d - q) * (c - a) + (p - c) * (d - b) =
        (c - a) * (d - q) - (c - p) * (d - b) := by ring
    rw [hz, div_self hdet] at h₂
    exact lt_irrefl 1 h₂

/-- **C7.** `intersects` is symmetric in its two segment arguments — swapping
the first endpoint pair `(a,b)–(c,d)` with the second `(p,q)–(r,s)` never
changes the result — and it returns `false` for any pair of segments that
share an endpoint. -/
theorem intersects_symm_and_false_of_shared_endpoint (a b c d p q r s : ℚ) :
    intersects a b c d p q r s = intersects p q r s a b c d ∧
    (((a, b) = (p, q) ∨ (a, b) = (r, s) ∨ (c, d) = (p, q) ∨
        (c, d) = (r, s)) →
      intersects a b c d p q r s = false) := by
  constructor
  · by_cases hdet : (c - a) * (s - q) - (r - p) * (d - b) = 0
    · have hdet' : (r - p) * (d - b) - (c - a) * (s - q) = 0 := by
        linarith
      simp [intersects, hdet, hdet']
    · have hdet' : (r - p) * (d - b) - (c - a) * (s - q) ≠ 0 := fun h => by
        apply hdet; linarith
      simp only [intersects, if_neg hdet, if_neg hdet',
        decide_eq_decide]
      have hl : ((d - b) * (c - p) + (a - c) * (d - q)) /
          ((r - p) * (d - b) - (c - a) * (s - q)) =
          1 - ((b - d) * (r - a) + (c - a) * (s - b)) /
            ((c - a) * (s - q) - (r - p) * (d - b)) := by
        field_simp
        ring
      have hg : ((q - s) * (c - p) + (r - p) * (d - q)) /
          ((r - p) * (d - b) - (c - a) * (s - q)) =
          1 - ((s - q) * (r - a) + (p - r) * (s - b)) /
            ((c - a) * (s - q) - (r - p) * (d - b)) := by
        field_simp
        ring
      rw [hl, hg]
      constructor
      · rintro ⟨h₁, h₂, h₃, h₄⟩
        exact ⟨by linarith, by linarith, by linarith, by linarith⟩
      · rintro ⟨h₁, h₂, h₃, h₄⟩
        exact ⟨by linarith, by linarith, by linarith, by linarith⟩
  · rintro (h | h | h | h) <;> obtain ⟨h₁, h₂⟩ := Prod.ext_iff.mp h <;>
      (try subst h₁) <;> (try subst h₂) <;> dsimp only at * <;>
      first
        | exact intersects_shared_ff ..
        | exact intersects_shared_fs ..
        | exact intersects_shared_sf ..
        | exact intersects_shared_ss ..

/-- Witness for C7 at concrete inputs. -/
theorem intersects_symm_and_false_of_shared_endpoint_witness :
    intersects 0 0 1 0 1 0 1 1 = false :=
  (intersects_symm_and_false_of_shared_endpoint 0 0 1 0 1 0 1 1).2
    (Or.inr (Or.inr (Or.inl rfl)))

/-! ## C2: the final score formula -/

/-- **C2.** The final score computed at game-over equals
`(100 * pixelsFilled - pixelsOverfilled) / (pixelsFilled +
pixelsUnderFilled)` — for any model and any canvas readbacks, the score the
`game-over` view displays after `end_game` is exactly that formula applied
to the three tallies `end_game` computed — and in particular for
`pixelsFilled = 100`, `pixelsOverfilled = 50`, `pixelsUnderFilled = 0` the
score is `(10000 - 50) / 100 = 99.5`. -/
theorem viewScore_endGame_eq_formula_and_995
    (m : Model) (overPixels drawData fillData : List ℕ) :
    viewScore (endGameUpdate m overPixels drawData fillData) =
      jsDiv (100 * ((countFillLoop fillData drawData).1 : ℚ) -
          (overfillCount overPixels : ℚ))
        (((countFillLoop fillData drawData).1 : ℚ) +
          ((countFillLoop fillData drawData).2 : ℚ)) ∧
    gameOverScore 100 50 0 = .num (995 / 10) := by
  constructor
  · rfl
  · show jsDiv (100 * (100 : ℚ) - 50) (100 + 0) = JsNum.num (995 / 10)
    rw [jsDiv]
    norm_num

/-! ## C3: the fill/underfill pass counts every mask pixel exactly once -/

/-- The fill/underfill tallies split the mask pixels: their sum is the number
of stride-4 positions whose red channel is `255`, whatever `drawData`
holds. -/
lemma countFillLoop_fst_add_snd (fillData : List ℕ) :
    ∀ drawData, (countFillLoop fillData drawData).1 +
      (countFillLoop fillData drawData).2 = maskCount fillData := by
  induction fillData using maskCount.induct with
  | case1 => intro drawData; simp [countFillLoop, maskCount]
  | case2 f ftail ih =>
    intro drawData
    rw [countFillLoop, maskCount]
    by_cases hf : f = 255
    · simp only [hf, ne_eq, not_true_eq_false, if_false, if_true]
      by_cases hd : drawData.head? = some gray
      · simp only [hd, if_true]
        have := ih (drawData.drop 4)
        omega
      · simp only [hd, if_false]
        have := ih (drawData.drop 4)
        omega
    · simp only [hf, ne_eq, not_false_eq_true, if_true, if_false]
      have := ih (drawData.drop 4)
      omega

/-- **C3.** In the fill/underfill scoring pass, every mask pixel (red channel
`255` in the freshly rendered interior mask) is counted exactly once —
`pixelsFilled` when the unmodified stroke layer carries the marker color
there, `pixelsUnderFilled` otherwise — so for every pair of equal-length
pixel buffers, `pixelsFilled + pixelsUnderFilled` equals the number of mask
pixels (the polygon's rasterized interior area), independent of the stroke
layer's contents. -/
theorem fill_add_underfill_eq_maskCount (fillData drawData : List ℕ)
    (_hlen : drawData.length = fillData.length) :
    (countFillLoop fillData drawData).1 +
      (countFillLoop fillData drawData).2 = maskCount fillData :=
  countFillLoop_fst_add_snd fillData drawData

/-- Witness for C3: a three-pixel mask buffer with two mask pixels, one
stroked and one not, against a stroke layer marking only the first pixel. -/
theorem fill_add_underfill_eq_maskCount_witness :
    (countFillLoop [255, 0, 0, 9, 7, 7, 7, 9, 255, 0, 0, 9]
        [170, 1, 1, 9, 170, 1, 1, 9, 0, 1, 1, 9]).1 +
      (countFillLoop [255, 0, 0, 9, 7, 7, 7, 9, 255, 0, 0, 9]
        [170, 1, 1, 9, 170, 1, 1, 9, 0, 1, 1, 9]).2 =
      maskCount [255, 0, 0, 9, 7, 7, 7, 9, 255, 0, 0, 9] :=
  fill_add_underfill_eq_maskCount _ _ (by rfl)

/-! ## C4: zero denominator — the code yields `NaN`/`-Infinity`, not a `0%`
sentinel -/

/-- The `init` model of `appProgram` (the claim-relevant fields). -/
def initModel : Model where
  page := .home
  shape := ⟨[]⟩
  windowSize := ⟨0, 0⟩
  canvasSize := ⟨0, 0⟩
  canvasViewSize := ⟨0, 0⟩
  shapeDrawAreaSize := ⟨0, 0⟩
  drawPointBuffer := []
  backgroundRect := none
  backgroundCtx := false
  pixelsFilled := 0
  pixelsOverfilled := 0
  pixelsUnderFilled := 0

/-- **C4, counterexample.** Ending a game over empty buffers (denominator
`pixelsFilled + pixelsUnderFilled = 0`) yields the JavaScript value `NaN`
(`0 / 0`), which is an undefined-result marker, not the `0%` sentinel the
claim asserts: the view renders `"NaN%"`. -/
theorem viewScore_zero_denominator_is_nan_not_zero :
    viewScore (endGameUpdate initModel [] [] []) = JsNum.nan ∧
      JsNum.nan ≠ JsNum.num 0 := by
  have h1 : countFillLoop [] [] = (0, 0) := by rw [countFillLoop]
  have h2 : overfillCount [] = 0 := by rw [overfillCount]
  constructor
  · simp [viewScore, endGameUpdate, gameOverScore, h1, h2, jsDiv]
  · intro h
    exact JsNum.noConfusion h

/-- **C4, amended.** When the scoring denominator
`pixelsFilled + pixelsUnderFilled` is zero, computing the final score does
not crash (the computation is total — JavaScript division never throws) but
it does not yield a `0%` sentinel: it yields `NaN` when `pixelsOverfilled`
is also zero and `-Infinity` otherwise, never a finite percentage. -/
theorem gameOverScore_zero_denominator_not_finite
    (f o u : ℕ) (h : f + u = 0) :
    gameOverScore f o u =
      (if o = 0 then JsNum.nan else JsNum.inf false) ∧
    ∀ q : ℚ, gameOverScore f o u ≠ JsNum.num q := by
  obtain ⟨hf, hu⟩ : f = 0 ∧ u = 0 := by omega
  subst hf; subst hu
  have hmain : gameOverScore 0 o 0 =
      (if o = 0 then JsNum.nan else JsNum.inf false) := by
    simp only [gameOverScore, Nat.cast_zero, mul_zero, zero_sub, add_zero]
    rw [jsDiv, if_pos rfl]
    by_cases ho : o = 0
    · subst ho
      norm_num
    · have hoq : (0 : ℚ) < (o : ℚ) := by
        exact_mod_cast Nat.pos_of_ne_zero ho
      rw [if_neg (by intro hc; exact absurd (neg_eq_zero.mp hc) (by positivity)),
        if_neg (by rw [not_lt]; linarith), if_neg ho]
  refine ⟨hmain, fun q hq => ?_⟩
  rw [hmain] at hq
  by_cases ho : o = 0
  · rw [if_pos ho] at hq
    exact JsNum.noConfusion hq
  · rw [if_neg ho] at hq
    exact JsNum.noConfusion hq

/-- Witness for C4's amended theorem at `pixelsOverfilled = 50`. -/
theorem gameOverScore_zero_denominator_not_finite_witness :
    gameOverScore 0 50 0 = (if (50 : ℕ) = 0 then JsNum.nan
      else JsNum.inf false) ∧ ∀ q : ℚ, gameOverScore 0 50 0 ≠ JsNum.num q :=
  gameOverScore_zero_denominator_not_finite 0 50 0 (by decide)

/-! ## C8: `window_resize` is a no-op during the game -/

/-- **C8.** For every model whose page is `game`, processing a
`window_resize` message returns the model unchanged with no effect: window
size, canvas sizes, shape draw area and shape are all left exactly as they
were, so an in-progress drawing is never destroyed by a resize during
active play. -/
theorem window_resize_noop_during_game (dpr : ℚ) (rand : Rand)
    (k fuel : ℕ) (width height : ℚ) (m : Model) (hpage : m.page = .game) :
    update dpr rand k fuel (.window_resize width height) m = some (m, []) := by
  simp [update, hpage]

/-- Witness for C8 on a concrete in-game model. -/
theorem window_resize_noop_during_game_witness :
    update 1 (fun _ => 0) 0 0 (.window_resize 800 600)
        { initModel with page := .game } =
      some ({ initModel with page := .game }, []) :=
  window_resize_noop_during_game 1 (fun _ => 0) 0 0 800 600
    { initModel with page := .game } rfl

/-! ## C9: the bounded stroke buffer -/

/-- An in-game model with a mounted background canvas whose 2D context is
not (yet) set, and a full 5-point buffer. -/
def fullBufferNoCtxModel : Model :=
  { initModel with
      page := .game
      backgroundRect := some (0, 0)
      backgroundCtx := false
      drawPointBuffer := [⟨0, 0⟩, ⟨1, 0⟩, ⟨2, 0⟩, ⟨3, 0⟩, ⟨4, 0⟩] }

/-- **C9, counterexample.**  On an in-game model holding 5 buffered points
whose background context is unavailable, a `canvas_draw` neither renders a
stroke nor resets the buffer to the single latest point: the code's
`if (!backgroundCtx) return [model]` guard leaves the model unchanged with
no effects, contradicting the claim's "once 5 points are buffered, the next
canvas_draw renders a stroke segment … and resets the buffer". -/
theorem canvas_draw_full_buffer_no_ctx_noop :
    update 1 (fun _ => 0) 0 0 (.canvas_draw 7 8) fullBufferNoCtxModel =
        some (fullBufferNoCtxModel, []) ∧
      fullBufferNoCtxModel.page = .game ∧
      fullBufferNoCtxModel.drawPointBuffer.length = 5 := by
  refine ⟨?_, rfl, rfl⟩
  simp [update, fullBufferNoCtxModel, initModel]

/-- **C9, amended.**  For every model in the `game` page *whose background
canvas and 2D context are available*: a `canvas_draw` with fewer than 5
buffered points appends the new point and renders nothing; with 5 buffered
points it renders a stroke through the buffered points plus the new sample
and resets the buffer to exactly the latest point; a `canvas_draw_end` with
a non-empty buffer renders the remaining buffered points and empties the
buffer (when the context is unavailable these messages leave the model
unchanged instead).  Consequently — context available or not —
`drawPointBuffer` never grows beyond 5 points. -/
theorem canvas_draw_buffer_discipline (dpr : ℚ) (rand : Rand)
    (k fuel : ℕ) (m : Model) :
    (∀ wx wy rect, m.backgroundRect = some rect →
      (m.drawPointBuffer.length < 5 →
        update dpr rand k fuel (.canvas_draw wx wy) m =
          some ({ m with drawPointBuffer := m.drawPointBuffer ++
            [⟨(wx - rect.1) * dpr, (wy - rect.2) * dpr⟩] }, [])) ∧
      (m.drawPointBuffer.length = 5 → m.backgroundCtx = true →
        update dpr rand k fuel (.canvas_draw wx wy) m =
          some ({ m with drawPointBuffer :=
              [⟨(wx - rect.1) * dpr, (wy - rect.2) * dpr⟩] },
            [.drawStroke (2 * getLineWidthForCanvasSize m.canvasViewSize)
              (m.drawPointBuffer ++
                [⟨(wx - rect.1) * dpr, (wy - rect.2) * dpr⟩])]))) ∧
    (m.drawPointBuffer ≠ [] → m.backgroundCtx = true →
      update dpr rand k fuel .canvas_draw_end m =
        some ({ m with drawPointBuffer := [] },
          [.drawStroke (2 * getLineWidthForCanvasSize m.canvasViewSize)
            m.drawPointBuffer])) ∧
    (∀ msg m' effs, m.drawPointBuffer.length ≤ 5 →
      update dpr rand k fuel msg m = some (m', effs) →
      m'.drawPointBuffer.length ≤ 5) := by
  refine ⟨fun wx wy rect hrect => ⟨fun hlt => ?_, fun hlen hctx => ?_⟩,
    fun hne hctx => ?_, fun msg m' effs hle hup => ?_⟩
  · simp [update, hrect, hlt]
  · simp [update, hrect, hlen, hctx]
  · have hlen : m.drawPointBuffer.length ≠ 0 := by
      simpa using hne
    simp [update, hlen, hctx]
  · rcases msg with ⟨w, h⟩ | ⟨wx, wy⟩ | _
    · by_cases hpage : m.page = .game
      · simp only [update, hpage, reduceIte, Option.some.injEq,
          Prod.mk.injEq] at hup
        obtain ⟨rfl, -⟩ := hup
        exact hle
      · simp only [update, if_neg hpage] at hup
        rcases hs : (if m.shape.points.length ≠ 0 then some m.shape
            else makeRandomShape
              ⟨(if w > h then
                  (⟨w - 20 * 2,
                    min (h - 20 * 2 - 70)
                      ((⌊(w - 20 * 2) / (3 / 2)⌋ : ℤ) : ℚ)⟩ : Size)
                else
                  ⟨min (w - 20 * 2)
                      ((⌊(h - 20 * 2 - 70) / (3 / 2)⌋ : ℤ) : ℚ),
                    h - 20 * 2 - 70⟩).width * dpr,
                (if w > h then
                  (⟨w - 20 * 2,
                    min (h - 20 * 2 - 70)
                      ((⌊(w - 20 * 2) / (3 / 2)⌋ : ℤ) : ℚ)⟩ : Size)
                else
                  ⟨min (w - 20 * 2)
                      ((⌊(h - 20 * 2 - 70) / (3 / 2)⌋ : ℤ) : ℚ),
                    h - 20 * 2 - 70⟩).height * dpr - 60⟩
              rand k fuel) with _ | sh
        · rw [hs] at hup
          exact absurd hup (by simp)
        · rw [hs] at hup
          simp only [Option.some.injEq, Prod.mk.injEq] at hup
          obtain ⟨rfl, -⟩ := hup
          simpa using hle
    · rcases hrect : m.backgroundRect with _ | rect
      · simp [update, hrect] at hup
      · by_cases hlt : m.drawPointBuffer.length < 5
        · simp only [update, hrect, if_pos hlt] at hup
          simp only [Option.some.injEq, Prod.mk.injEq] at hup
          obtain ⟨rfl, -⟩ := hup
          simp
          omega
        · by_cases hctx : m.backgroundCtx
          · simp only [update, hrect, if_neg hlt, hctx,
              Bool.not_true, Bool.false_eq_true, if_false] at hup
            simp only [Option.some.injEq, Prod.mk.injEq] at hup
            obtain ⟨rfl, -⟩ := hup
            simp
          · simp only [update, hrect, if_neg hlt,
              Bool.not_eq_true' .. ▸ rfl] at hup
            rw [Bool.not_eq_true] at hctx
            rw [hctx] at hup
            simp only [Bool.not_false, if_pos rfl, Option.some.injEq,
              Prod.mk.injEq] at hup
            obtain ⟨rfl, -⟩ := hup
            exact hle
    · by_cases hz : m.drawPointBuffer.length = 0
      · simp only [update, if_pos hz, Option.some.injEq,
          Prod.mk.injEq] at hup
        obtain ⟨rfl, -⟩ := hup
        exact hle
      · by_cases hctx : m.backgroundCtx
        · simp only [update, if_neg hz, hctx, Bool.not_true,
            Bool.false_eq_true, if_false, Option.some.injEq,
            Prod.mk.injEq] at hup
          obtain ⟨rfl, -⟩ := hup
          simp
        · rw [Bool.not_eq_true] at hctx
          simp only [update, if_neg hz, hctx, Bool.not_false,
            if_pos rfl, Option.some.injEq, Prod.mk.injEq] at hup
          obtain ⟨rfl, -⟩ := hup
          exact hle

/-- Witness for C9's amended theorem: from the 4-point buffer, a
`canvas_draw` appends the sample `(7, 8)` and renders nothing. -/
theorem canvas_draw_buffer_discipline_witness :
    update 1 (fun _ => 0) 0 0 (.canvas_draw 7 8)
        { initModel with
            backgroundRect := some (0, 0)
            backgroundCtx := true
            drawPointBuffer := [⟨0, 0⟩, ⟨1, 0⟩, ⟨2, 0⟩, ⟨3, 0⟩] } =
      some ({ initModel with
          backgroundRect := some (0, 0)
          backgroundCtx := true
          drawPointBuffer :=
            [⟨0, 0⟩, ⟨1, 0⟩, ⟨2, 0⟩, ⟨3, 0⟩, ⟨(7 - 0) * 1, (8 - 0) * 1⟩] },
        []) := by
  have h := ((canvas_draw_buffer_discipline 1 (fun _ => 0) 0 0
    { initModel with
        backgroundRect := some (0, 0)
        backgroundCtx := true
        drawPointBuffer := [⟨0, 0⟩, ⟨1, 0⟩, ⟨2, 0⟩, ⟨3, 0⟩] }).1
    7 8 (0, 0) rfl).1 (by decide)
  exact h

/-! ## C10: `drawPoints` needs a non-empty list, and only gets one -/

/-- The smoothing loop never reads out of bounds while `i + 1` is a valid
index. -/
lemma drawPointsLoop_isSome (points : List Point) :
    ∀ n i, points.length - i = n → i + 1 < points.length →
      (drawPointsLoop points i).isSome := by
  intro n
  induction n using Nat.strong_induction_on with
  | _ n ih =>
    intro i hn hi
    rw [drawPointsLoop]
    split
    · rename_i hlt
      rw [List.getElem?_eq_getElem (by omega),
        List.getElem?_eq_getElem hi]
      have hrec := ih (points.length - (i + 1)) (by omega) (i + 1) rfl
        (by omega)
      obtain ⟨v, hv⟩ := Option.isSome_iff_exists.mp hrec
      simp only [hv, Option.map_some]
      rfl
    · rw [List.getElem?_eq_getElem (by omega),
        List.getElem?_eq_getElem hi]
      rfl

/-- `drawPoints` succeeds on every non-empty list. -/
lemma drawPoints_isSome_of_ne_nil (lineWidth : ℚ) (points : List Point)
    (h : points ≠ []) : (drawPoints lineWidth points).isSome := by
  rw [drawPoints]
  split
  · rcases points with _ | ⟨b, rest⟩
    · exact absurd rfl h
    · simp [List.getElem?_cons_zero]
  · rename_i hge
    rcases points with _ | ⟨b, rest⟩
    · exact absurd rfl h
    · have hlen : 1 + 1 < (b :: rest).length := by
        simp only [List.length_cons] at hge ⊢
        omega
      have := drawPointsLoop_isSome (b :: rest)
        ((b :: rest).length - 1) 1 rfl hlen
      obtain ⟨v, hv⟩ := Option.isSome_iff_exists.mp this
      simp only [List.getElem?_cons_zero, hv, Option.map_some]
      rfl

/-- **C10.** `drawPoints` unconditionally reads `points[0]` in its
fewer-than-3-points branch (and `points[i+1]` in the smoothing branch), so
it requires a non-empty input to avoid an out-of-bounds access — on the
empty list it crashes (modelled as `none`), on any non-empty list it
succeeds.  This error branch is unreachable from the state machine: with
the ≤ 5 buffer invariant, `canvas_draw` only ever emits a stroke effect
over exactly 6 points (5 buffered + the new sample), and `canvas_draw_end`
returns early, rendering nothing, whenever the buffer is empty. -/
theorem drawPoints_empty_crash_unreachable :
    (∀ lineWidth : ℚ, drawPoints lineWidth [] = none) ∧
    (∀ (lineWidth : ℚ) (points : List Point), points ≠ [] →
      (drawPoints lineWidth points).isSome) ∧
    (∀ (dpr : ℚ) (rand : Rand) (k fuel : ℕ) (wx wy : ℚ) (m : Model)
        (m' : Model) (effs : List Eff),
      m.drawPointBuffer.length ≤ 5 →
      update dpr rand k fuel (.canvas_draw wx wy) m = some (m', effs) →
      ∀ e ∈ effs, ∃ lineWidth points, e = .drawStroke lineWidth points ∧
        points.length = 6 ∧ (drawPoints lineWidth points).isSome) ∧
    (∀ (dpr : ℚ) (rand : Rand) (k fuel : ℕ) (m : Model),
      m.drawPointBuffer = [] →
      update dpr rand k fuel .canvas_draw_end m = some (m, [])) := by
  refine ⟨fun lineWidth => rfl, drawPoints_isSome_of_ne_nil,
    fun dpr rand k fuel wx wy m m' effs hle hup e he => ?_,
    fun dpr rand k fuel m hbuf => ?_⟩
  · rcases hrect : m.backgroundRect with _ | rect
    · simp [update, hrect] at hup
    · by_cases hlt : m.drawPointBuffer.length < 5
      · simp only [update, hrect, if_pos hlt] at hup
        simp only [Option.some.injEq, Prod.mk.injEq] at hup
        obtain ⟨-, rfl⟩ := hup
        exact absurd he (List.not_mem_nil e)
      · by_cases hctx : m.backgroundCtx
        · simp only [update, hrect, if_neg hlt, hctx, Bool.not_true,
            Bool.false_eq_true, if_false, Option.some.injEq,
            Prod.mk.injEq] at hup
          obtain ⟨-, rfl⟩ := hup
          rcases List.mem_singleton.mp he with rfl
          refine ⟨_, _, rfl, ?_, ?_⟩
          · simp only [List.length_append, List.length_singleton]
            omega
          · exact drawPoints_isSome_of_ne_nil _ _ (by simp)
        · rw [Bool.not_eq_true] at hctx
          simp only [update, hrect, if_neg hlt, hctx, Bool.not_false,
            if_pos rfl, Option.some.injEq, Prod.mk.injEq] at hup
          obtain ⟨-, rfl⟩ := hup
          exact absurd he (List.not_mem_nil e)
  · have hz : m.drawPointBuffer.length = 0 := by
      rw [hbuf]; rfl
    simp [update, hz]

/-- Witness for C10's quantified clauses at concrete inputs: the crash on
`[]`, success on a singleton, and the early return of `canvas_draw_end` on
an empty buffer. -/
theorem drawPoints_empty_crash_unreachable_witness :
    (drawPoints 10 [⟨3, 4⟩]).isSome ∧
      update 1 (fun _ => 0) 0 0 .canvas_draw_end initModel =
        some (initModel, []) :=
  ⟨drawPoints_empty_crash_unreachable.2.1 10 [⟨3, 4⟩] (by simp),
   drawPoints_empty_crash_unreachable.2.2.2 1 (fun _ => 0) 0 0 initModel
     rfl⟩

/-! ## C1: every shape the generator returns passes its own validation -/

/-- The sampling loop yields exactly `n` points. -/
lemma makeRandomPoints_length (viewPort : Size) (rand : Rand) :
    ∀ n k, (makeRandomPoints viewPort rand k n).1.length = n := by
  intro n
  induction n with
  | zero => intro k; rfl
  | succ n ih =>
    intro k
    simp only [makeRandomPoints, List.length_cons, ih]

/-- The pop loop never empties a non-empty stack. -/
lemma hullPop_ne_nil (p : Point) :
    ∀ l : List Point, l ≠ [] → hullPop p l ≠ [] := by
  intro l
  induction l with
  | nil => exact fun h => absurd rfl h
  | cons q t ih =>
    intro _
    cases t with
    | nil => simp [hullPop]
    | cons r rest =>
      rw [hullPop]
      split
      · exact ih (List.cons_ne_nil r rest)
      · exact List.cons_ne_nil q (r :: rest)

/-- A scan starting from a stack of two or more entries keeps at least
two. -/
lemma foldl_hullStep_two :
    ∀ (l stack : List Point), 2 ≤ stack.length →
      2 ≤ (List.foldl hullStep stack l).length := by
  intro l
  induction l with
  | nil => exact fun stack h => h
  | cons p t ih =>
    intro stack h
    rw [List.foldl_cons]
    apply ih
    have hne : stack ≠ [] := by
      intro hc; rw [hc] at h; simp at h
    have := hullPop_ne_nil p stack hne
    have : 1 ≤ (hullPop p stack).length := by
      rwa [Nat.one_le_iff_ne_zero, Ne, List.length_eq_zero]
    simp only [hullStep, List.length_cons]
    omega

/-- On two or more points, each chain stack finishes with at least two
entries. -/
lemma hullScan_two_le (a b : Point) (rest : List Point) :
    2 ≤ (hullScan (a :: b :: rest)).length := by
  rw [hullScan, List.foldl_cons, List.foldl_cons]
  exact foldl_hullStep_two rest _ (le_refl 2)

/-- The hull of a non-empty list is non-empty. -/
lemma makeHullPresorted_ne_nil (points : List Point) (h : points ≠ []) :
    makeHullPresorted points ≠ [] := by
  rw [makeHullPresorted]
  split
  · exact h
  · rename_i hlen
    rcases points with _ | ⟨a, t⟩
    · exact absurd rfl h
    · rcases t with _ | ⟨b, rest⟩
      · exact absurd hlen (by simp)
      · have h2 : 2 ≤ (hullScan (a :: b :: rest)).length :=
          hullScan_two_le a b rest
        have hup : (hullScan (a :: b :: rest)).tail.reverse ≠ [] := by
          rw [Ne, ← List.length_eq_zero, List.length_reverse,
            List.length_tail]
          omega
        dsimp only
        split
        · split
          · simp
          · intro hc
            rw [List.append_eq_nil] at hc
            exact hup hc.1
        · intro hc
          rw [List.append_eq_nil] at hc
          exact hup hc.1

/-- The JavaScript-clamped splice index is always admissible. -/
lemma spliceIdx_le (len : ℕ) (i : ℤ) : spliceIdx len i ≤ len := by
  rw [spliceIdx]
  split
  · omega
  · exact min_le_right _ _

/-- Splicing one element in grows the length by exactly one. -/
lemma splice_length (l : List Point) (i : ℤ) (x : Point) :
    (splice l i x).length = l.length + 1 := by
  rw [splice, List.length_insertIdx _ _ (spliceIdx_le l.length i)]

/-- With a `[0, 1)` sample for the point count, every generation attempt
produces at least three vertices (a non-empty hull plus the two spliced
notch points). -/
lemma makeShapeAttempt_three_le (viewPort : Size) (rand : Rand) (k : ℕ)
    (h0 : 0 ≤ rand k) : 3 ≤ (makeShapeAttempt viewPort rand k).1.length := by
  have hcount : 1 ≤ (10 + ⌊rand k * 6⌋).toNat := by
    have : (0 : ℤ) ≤ ⌊rand k * 6⌋ := by
      apply Int.floor_nonneg.mpr
      positivity
    omega
  have hne : (makeRandomPoints viewPort rand (k + 1)
      ((10 + ⌊rand k * 6⌋).toNat)).1 ≠ [] := by
    rw [Ne, ← List.length_eq_zero, makeRandomPoints_length]
    omega
  have hsort : ((makeRandomPoints viewPort rand (k + 1)
        ((10 + ⌊rand k * 6⌋).toNat)).1.mergeSort
      fun a b => decide (pointComparator a b ≤ 0)) ≠ [] := by
    rw [Ne, ← List.length_eq_zero, List.length_mergeSort,
      List.length_eq_zero]
    exact hne
  have hhull := makeHullPresorted_ne_nil _ hsort
  have hhl : 1 ≤ (makeHullPresorted
      ((makeRandomPoints viewPort rand (k + 1)
          ((10 + ⌊rand k * 6⌋).toNat)).1.mergeSort
        fun a b => decide (pointComparator a b ≤ 0))).length := by
    rwa [Nat.one_le_iff_ne_zero, Ne, List.length_eq_zero]
  show 3 ≤ (splice (splice _ _ _) _ _).length
  rw [splice_length, splice_length]
  omega

/-- **C1.** For every viewport (and genuine `[0, 1)` randomness source) on
which `makeRandomShape` terminates, the returned polygon satisfies the
generator's postcondition: it has at least 3 vertices, no two edges of its
closed loop properly intersect — `intersects` is `false` on every ordered
pair of edges, and by `intersects_shared_ff`/`…_ss` it is automatically
`false` exactly on pairs sharing an endpoint — and no two distinct vertices
are `nearBy` within range `min(viewport.width, viewport.height) / 10`. -/
theorem makeRandomShape_postcondition (viewPort : Size) (rand : Rand)
    (fuel k : ℕ) (shape : Shape) (hr : RandInRange rand)
    (h : makeRandomShape viewPort rand k fuel = some shape) :
    3 ≤ shape.points.length ∧
    (∀ l₁ ∈ makeLines shape.points, ∀ l₂ ∈ makeLines shape.points,
      intersects l₁.1.x l₁.1.y l₁.2.x l₁.2.y l₂.1.x l₂.1.y l₂.2.x l₂.2.y =
        false) ∧
    (∀ (i j : ℕ) (hi : i < shape.points.length)
      (hj : j < shape.points.length), i ≠ j →
      nearBy shape.points[i] shape.points[j]
        (min viewPort.width viewPort.height / 10) = false) := by
  induction fuel generalizing k with
  | zero => exact absurd h (by rw [makeRandomShape]; simp)
  | succ n ih =>
    rw [makeRandomShape] at h
    by_cases hc1 : linesIntersectCheck
        (makeLines (makeShapeAttempt viewPort rand k).1)
    · rw [if_pos hc1] at h
      exact ih _ h
    · rw [if_neg hc1] at h
      by_cases hc2 : nearByCheck (makeShapeAttempt viewPort rand k).1
          (min viewPort.width viewPort.height / 10)
      · rw [if_pos hc2] at h
        exact ih _ h
      · rw [if_neg hc2] at h
        have hsh : Shape.mk (makeShapeAttempt viewPort rand k).1 = shape :=
          Option.some.inj h
        subst hsh
        refine ⟨makeShapeAttempt_three_le viewPort rand k (hr k).1,
          ?_, ?_⟩
        · intro l₁ h₁ l₂ h₂
          rw [Bool.not_eq_true, linesIntersectCheck,
            List.any_eq_false] at hc1
          have h' := hc1 l₁ h₁
          rw [Bool.not_eq_true, List.any_eq_false] at h'
          have h'' := h' l₂ h₂
          rwa [Bool.not_eq_true] at h''
        · intro i j hi hj hij
          rw [Bool.not_eq_true, nearByCheck, List.any_eq_false] at hc2
          have hmi : (i, (makeShapeAttempt viewPort rand k).1[i]) ∈
              (makeShapeAttempt viewPort rand k).1.enum :=
            List.mk_mem_enum_iff_getElem?.mpr
              (List.getElem?_eq_getElem hi)
          have hmj : (j, (makeShapeAttempt viewPort rand k).1[j]) ∈
              (makeShapeAttempt viewPort rand k).1.enum :=
            List.mk_mem_enum_iff_getElem?.mpr
              (List.getElem?_eq_getElem hj)
          have h' := hc2 _ hmi
          rw [Bool.not_eq_true, List.any_eq_false] at h'
          have h'' := h' _ hmj
          rw [Bool.not_eq_true, Bool.and_eq_false_iff] at h''
          rcases h'' with hd | hn
          · rw [decide_eq_false_iff_not] at hd
            exact absurd hij (by simpa using hd)
          · exact hn

/-- The concrete 27-sample `Math.random()` tape of the C1 witness (all
samples in `[0, 1)`; reads past the end return `0`, also in `[0, 1)`). -/
def c1TapeList : List ℚ :=
  [0, 0, 0, 2/19, 0, 4/19, 0, 6/19, 0, 8/19, 0,
   10/19, 0, 12/19, 0, 14/19, 0, 16/19, 0, 18/19, 0,
   3/16, 4/55, 13/16, 46/55, 0, 0]

/-- The C1 witness oracle. -/
def c1Tape : Rand := fun n => c1TapeList.getD n 0

/-- The ten collinear sample points the witness tape produces on the
`400 × 300` viewport. -/
def c1Pts : List Point :=
  [⟨10, 10⟩, ⟨50, 10⟩, ⟨90, 10⟩, ⟨130, 10⟩, ⟨170, 10⟩,
   ⟨210, 10⟩, ⟨250, 10⟩, ⟨290, 10⟩, ⟨330, 10⟩, ⟨370, 10⟩]

/-- The 4-gon the witness tape generates: the two hull survivors plus the
two spliced notch points. -/
def c1Out : List Point :=
  [⟨100, 281/4⟩, ⟨200, 599/4⟩, ⟨10, 10⟩, ⟨370, 10⟩]

set_option maxHeartbeats 2000000 in
/-- Evaluation of the witness generation attempt. -/
lemma c1attempt : makeShapeAttempt ⟨400, 300⟩ c1Tape 0 = (c1Out, 27) := by
  have hsort : (c1Pts.mergeSort fun a b =>
      decide (pointComparator a b ≤ 0)) = c1Pts :=
    List.mergeSort_of_sorted
      (by norm_num [c1Pts, List.pairwise_cons, pointComparator])
  have hpts : makeRandomPoints ⟨400, 300⟩ c1Tape 1 10 = (c1Pts, 21) := by
    norm_num [makeRandomPoints, makeRandomPoint, c1Tape, c1TapeList, c1Pts]
  have hhull : makeHullPresorted c1Pts = [⟨10, 10⟩, ⟨370, 10⟩] := by
    norm_num [c1Pts, makeHullPresorted, hullScan, hullStep, hullPop,
      hullPopTest]
  rw [makeShapeAttempt]
  rw [show (⌊c1Tape 0 * 6⌋ : ℤ) = 0 by norm_num [c1Tape, c1TapeList]]
  rw [show ((10 : ℤ) + 0).toNat = 10 by decide]
  rw [show (0 : ℕ) + 1 = 1 from rfl]
  rw [hpts]
  dsimp only
  rw [hsort, hhull]
  norm_num [c1Tape, c1TapeList, makeRandomPoint, splice, spliceIdx,
    pointComparator, c1Out]

set_option maxHeartbeats 2000000 in
/-- Evaluation of the two validation checks on the witness shape. -/
lemma c1checks :
    linesIntersectCheck (makeLines c1Out) = false ∧
      nearByCheck c1Out (min (400 : ℚ) 300 / 10) = false := by
  constructor
  · norm_num [c1Out, makeLines, linesIntersectCheck, intersects]
  · norm_num [c1Out, nearByCheck, nearBy, List.enum_cons,
      List.enumFrom_cons, List.forall_mem_cons]

/-- The witness run: generation succeeds on the first attempt. -/
lemma c1run : makeRandomShape ⟨400, 300⟩ c1Tape 0 1 = some ⟨c1Out⟩ := by
  rw [makeRandomShape]
  rw [c1attempt]
  simp only [c1checks.1, c1checks.2, Bool.false_eq_true, if_false]

/-- The witness tape is a genuine `[0, 1)` randomness source. -/
lemma c1Tape_inRange : RandInRange c1Tape := by
  intro n
  rcases Nat.lt_or_ge n 27 with hn | hn
  · interval_cases n <;> constructor <;> norm_num [c1Tape, c1TapeList]
  · have hlen : c1TapeList.length ≤ n := by
      rw [show c1TapeList.length = 27 by rw [c1TapeList]; rfl]
      exact hn
    rw [show c1Tape n = c1TapeList.getD n 0 from rfl,
      List.getD_eq_default _ _ hlen]
    norm_num

/-- Witness for C1: a concrete 27-sample tape on the `400 × 300` viewport
for which generation succeeds on the first attempt, returning the 4-gon
`(100, 70.25), (200, 149.75), (10, 10), (370, 10)`. -/
theorem makeRandomShape_postcondition_witness :
    3 ≤ c1Out.length ∧
    (∀ l₁ ∈ makeLines c1Out, ∀ l₂ ∈ makeLines c1Out,
      intersects l₁.1.x l₁.1.y l₁.2.x l₁.2.y l₂.1.x l₂.1.y l₂.2.x l₂.2.y =
        false) ∧
    (∀ (i j : ℕ) (hi : i < c1Out.length) (hj : j < c1Out.length), i ≠ j →
      nearBy c1Out[i] c1Out[j] (min (400 : ℚ) 300 / 10) = false) :=
  makeRandomShape_postcondition ⟨400, 300⟩ c1Tape 1 0 ⟨c1Out⟩
    c1Tape_inRange c1run


/-! ## C5: `makeHullPresorted` on a convex-position sorted input -/

/-- Twice the signed area of the triangle `o a b` (positive = `b` lies
strictly to the left of the directed line `o → a`, with the mathematical
`y`-up convention). -/
def cross (o a b : Point) : ℚ :=
  (a.x - o.x) * (b.y - o.y) - (a.y - o.y) * (b.x - o.x)

lemma cross_cyclic (o a b : Point) : cross o a b = cross a b o := by
  unfold cross; ring

lemma cross_swap (o a b : Point) : cross o a b = -cross o b a := by
  unfold cross; ring

lemma hullPopTest_iff (r q p : Point) :
    hullPopTest r q p ↔ 0 ≤ cross r q p := by
  unfold hullPopTest cross
  constructor <;> intro h <;> linarith

/-- The interpolation identity behind the monotone-chain/lexicographic
bridge lemmas. -/
lemma cross_interp_h (w l h p : Point) :
    (h.x - w.x) * cross l h p =
      (p.x - h.x) * cross w h l + (h.x - l.x) * cross w h p := by
  unfold cross; ring

/-- The second interpolation identity. -/
lemma cross_interp_l (w l h p : Point) :
    (l.x - w.x) * cross l h p =
      (p.x - l.x) * cross w h l + (h.x - l.x) * cross w l p := by
  unfold cross; ring

/-- If all four `x`-coordinates agree, every cross product vanishes. -/
lemma cross_eq_zero_of_x_eq {w h l : Point} (h1 : w.x = h.x)
    (h2 : w.x = l.x) : cross w h l = 0 := by
  unfold cross
  rw [← h1, ← h2]
  ring

/-- Bridge lemma M1: four points with weakly increasing `x` cannot have
`l` strictly right of `w → h`, `p` strictly right of `w → h` reversed…
precisely: `cross w h l > 0`, `cross w h p > 0` and `cross l h p < 0` are
jointly impossible. -/
lemma bridgeM1 {w l h p : Point} (h1 : 0 < cross w h l)
    (h2 : 0 < cross w h p) (h3 : cross l h p < 0) (hx1 : w.x ≤ l.x)
    (hx2 : l.x ≤ h.x) (hx3 : h.x ≤ p.x) : False := by
  have key := cross_interp_h w l h p
  have t1 : (h.x - w.x) * cross l h p ≤ 0 :=
    mul_nonpos_of_nonneg_of_nonpos (by linarith) h3.le
  have t2 : 0 ≤ (p.x - h.x) * cross w h l :=
    mul_nonneg (by linarith) h1.le
  have t3 : 0 ≤ (h.x - l.x) * cross w h p :=
    mul_nonneg (by linarith) h2.le
  have hz2 : (p.x - h.x) * cross w h l = 0 := by linarith
  have hzL : (h.x - w.x) * cross l h p = 0 := by linarith
  have hz3 : (h.x - l.x) * cross w h p = 0 := by linarith
  have e1 : h.x = w.x := by
    rcases mul_eq_zero.mp hzL with e | e
    · linarith
    · exact absurd e (ne_of_lt h3)
  have e2 : p.x = h.x := by
    rcases mul_eq_zero.mp hz2 with e | e
    · linarith
    · exact absurd e (ne_of_gt h1)
  have e3 : h.x = l.x := by
    rcases mul_eq_zero.mp hz3 with e | e
    · linarith
    · exact absurd e (ne_of_gt h2)
  exact absurd (cross_eq_zero_of_x_eq e1.symm (e1.symm.trans e3))
    (ne_of_gt h1)

/-- Mirror of `bridgeM1` (clockwise version). -/
lemma bridgeM2 {w l h p : Point} (h1 : cross w h l < 0)
    (h2 : cross w h p < 0) (h3 : 0 < cross l h p) (hx1 : w.x ≤ l.x)
    (hx2 : l.x ≤ h.x) (hx3 : h.x ≤ p.x) : False := by
  have key := cross_interp_h w l h p
  have t1 : 0 ≤ (h.x - w.x) * cross l h p :=
    mul_nonneg (by linarith) h3.le
  have t2 : (p.x - h.x) * cross w h l ≤ 0 :=
    mul_nonpos_of_nonneg_of_nonpos (by linarith) h1.le
  have t3 : (h.x - l.x) * cross w h p ≤ 0 :=
    mul_nonpos_of_nonneg_of_nonpos (by linarith) h2.le
  have hz2 : (p.x - h.x) * cross w h l = 0 := by linarith
  have hzL : (h.x - w.x) * cross l h p = 0 := by linarith
  have hz3 : (h.x - l.x) * cross w h p = 0 := by linarith
  have e1 : h.x = w.x := by
    rcases mul_eq_zero.mp hzL with e | e
    · linarith
    · exact absurd e (ne_of_gt h3)
  have e2 : p.x = h.x := by
    rcases mul_eq_zero.mp hz2 with e | e
    · linarith
    · exact absurd e (ne_of_lt h1)
  have e3 : h.x = l.x := by
    rcases mul_eq_zero.mp hz3 with e | e
    · linarith
    · exact absurd e (ne_of_lt h2)
  exact absurd (cross_eq_zero_of_x_eq e1.symm (e1.symm.trans e3))
    (ne_of_lt h1)

/-- Third bridge: `cross w l h > 0`, `cross w l p < 0`, `cross l h p > 0`
are jointly impossible under the `x`-chain. -/
lemma bridgeM3 {w l h p : Point} (h1 : 0 < cross w l h)
    (h2 : cross w l p < 0) (h3 : 0 < cross l h p) (hx1 : w.x ≤ l.x)
    (hx2 : l.x ≤ h.x) (hx3 : h.x ≤ p.x) : False := by
  have key := cross_interp_l w l h p
  have hwhl : cross w h l < 0 := by
    have := cross_swap w h l
    have h1' : 0 < cross w l h := h1
    rw [cross_swap w l h] at h1'
    linarith
  have t1 : 0 ≤ (l.x - w.x) * cross l h p :=
    mul_nonneg (by linarith) h3.le
  have t2 : (p.x - l.x) * cross w h l ≤ 0 :=
    mul_nonpos_of_nonneg_of_nonpos (by linarith) hwhl.le
  have t3 : (h.x - l.x) * cross w l p ≤ 0 :=
    mul_nonpos_of_nonneg_of_nonpos (by linarith) h2.le
  have hz2 : (p.x - l.x) * cross w h l = 0 := by linarith
  have hzL : (l.x - w.x) * cross l h p = 0 := by linarith
  have hz3 : (h.x - l.x) * cross w l p = 0 := by linarith
  have e1 : l.x = w.x := by
    rcases mul_eq_zero.mp hzL with e | e
    · linarith
    · exact absurd e (ne_of_gt h3)
  have e2 : p.x = l.x := by
    rcases mul_eq_zero.mp hz2 with e | e
    · linarith
    · exact absurd e (ne_of_lt hwhl)
  have e3 : h.x = l.x := by
    rcases mul_eq_zero.mp hz3 with e | e
    · linarith
    · exact absurd e (ne_of_lt h2)
  have hfin : cross w l h = 0 :=
    cross_eq_zero_of_x_eq e1.symm (e3.trans e1).symm
  exact absurd hfin (ne_of_gt h1)


/-! ## Lexicographic order and cyclic orientation dictionary -/

/-- The strict lexicographic order that `pointComparator` decides. -/
def PtLt (a b : Point) : Prop :=
  a.x < b.x ∨ (a.x = b.x ∧ a.y < b.y)

lemma PtLt.x_le {a b : Point} (h : PtLt a b) : a.x ≤ b.x := by
  rcases h with h | ⟨h, -⟩
  · exact h.le
  · exact h.le

lemma PtLt.trans' {a b c : Point} (h1 : PtLt a b) (h2 : PtLt b c) :
    PtLt a c := by
  rcases h1 with h1 | ⟨e1, h1⟩ <;> rcases h2 with h2 | ⟨e2, h2⟩
  · exact Or.inl (h1.trans h2)
  · exact Or.inl (e2 ▸ h1)
  · exact Or.inl (e1 ▸ h2)
  · exact Or.inr ⟨e1.trans e2, h1.trans h2⟩

lemma PtLt.ne {a b : Point} (h : PtLt a b) : a ≠ b := by
  rintro rfl
  rcases h with h | ⟨-, h⟩ <;> exact lt_irrefl _ h

lemma ptLt_of_comparator {a b : Point} (h : pointComparator a b ≤ 0)
    (hne : a ≠ b) : PtLt a b := by
  unfold pointComparator at h
  split_ifs at h with h1 h2 h3 h4
  · exact Or.inl h1
  · exact absurd h (by norm_num)
  · exact Or.inr ⟨le_antisymm (not_lt.mp h2) (not_lt.mp h1), h3⟩
  · exact absurd h (by norm_num)
  · refine absurd ?_ hne
    have hx : a.x = b.x := le_antisymm (not_lt.mp h2) (not_lt.mp h1)
    have hy : a.y = b.y := le_antisymm (not_lt.mp h4) (not_lt.mp h3)
    cases a
    cases b
    simp only [Point.mk.injEq]
    exact ⟨hx, hy⟩

/-- `i`, `j`, `k` are pairwise distinct and occur counter-clockwise in
this cyclic order. -/
def Cyclic3 (i j k : ℕ) : Prop :=
  (i < j ∧ j < k) ∨ (j < k ∧ k < i) ∨ (k < i ∧ i < j)

/-- `qs` lists the vertices of a strictly convex polygon (no three
collinear) in counter-clockwise cyclic order, with the mathematical `y`-up
convention: every triple of vertices, taken in list order, turns strictly
counter-clockwise.  (The vertex sequence of a strictly convex CCW polygon,
started at any vertex, satisfies this, and nothing else does — e.g. star
traversals of a convex vertex set fail it on some increasing triple.) -/
def ConvexCCW (qs : List Point) : Prop :=
  3 ≤ qs.length ∧
    ∀ (i j k : ℕ) (h1 : i < j) (h2 : j < k) (h3 : k < qs.length),
      0 < cross (qs.get ⟨i, by omega⟩) (qs.get ⟨j, by omega⟩)
          (qs.get ⟨k, h3⟩)

lemma cross_self_left (a c : Point) : cross a a c = 0 := by
  unfold cross; ring

lemma cross_self_right (o a : Point) : cross o a a = 0 := by
  unfold cross; ring

lemma cross_self_outer (a b : Point) : cross a b a = 0 := by
  unfold cross; ring

/-- A convex vertex list has no duplicates. -/
lemma ConvexCCW.nodup {qs : List Point} (hq : ConvexCCW qs) : qs.Nodup := by
  obtain ⟨hlen, hcc⟩ := hq
  have key : ∀ i j (hi : i < qs.length) (hj : j < qs.length), i < j →
      qs.get ⟨i, hi⟩ = qs.get ⟨j, hj⟩ → False := by
    intro i j hi hj hlt heq
    rcases Nat.lt_or_ge (j + 1) qs.length with hj1 | hj1
    · have h := hcc i j (j + 1) hlt (by omega) hj1
      rw [heq, cross_self_left] at h
      exact lt_irrefl _ h
    · rcases Nat.eq_zero_or_pos i with rfl | hi0
      · have h := hcc 0 1 j (by omega) (by omega) hj
        rw [heq, cross_self_outer] at h
        exact lt_irrefl _ h
      · have h := hcc 0 i j hi0 hlt hj
        rw [heq, cross_self_right] at h
        exact lt_irrefl _ h
  rw [List.nodup_iff_injective_get]
  rintro ⟨i, hi⟩ ⟨j, hj⟩ heq
  by_contra hne
  simp only [ne_eq, Fin.mk.injEq] at hne
  rcases Nat.lt_trichotomy i j with hlt | hlt | hlt
  · exact key i j hi hj hlt heq
  · exact hne hlt
  · exact key j i hj hi hlt heq.symm


/-- Orientation dictionary: for three distinct vertices of a convex CCW
polygon, the cross product is positive exactly when their indices occur in
counter-clockwise cyclic order. -/
lemma cross_pos_iff {qs : List Point} (hq : ConvexCCW qs) {a b c : Point}
    (ha : a ∈ qs) (hb : b ∈ qs) (hc : c ∈ qs)
    (hab : a ≠ b) (hbc : b ≠ c) (hac : a ≠ c) :
    0 < cross a b c ↔
      Cyclic3 (qs.indexOf a) (qs.indexOf b) (qs.indexOf c) := by
  obtain ⟨hlen, hcc⟩ := hq
  have hi : qs.indexOf a < qs.length := List.indexOf_lt_length.mpr ha
  have hj : qs.indexOf b < qs.length := List.indexOf_lt_length.mpr hb
  have hk : qs.indexOf c < qs.length := List.indexOf_lt_length.mpr hc
  have hga : qs.get ⟨qs.indexOf a, hi⟩ = a := List.indexOf_get hi
  have hgb : qs.get ⟨qs.indexOf b, hj⟩ = b := List.indexOf_get hj
  have hgc : qs.get ⟨qs.indexOf c, hk⟩ = c := List.indexOf_get hk
  have hij : qs.indexOf a ≠ qs.indexOf b := by
    intro h; exact hab ((List.indexOf_inj ha hb).mp h)
  have hjk : qs.indexOf b ≠ qs.indexOf c := by
    intro h; exact hbc ((List.indexOf_inj hb hc).mp h)
  have hik : qs.indexOf a ≠ qs.indexOf c := by
    intro h; exact hac ((List.indexOf_inj ha hc).mp h)
  rcases Nat.lt_trichotomy (qs.indexOf a) (qs.indexOf b) with h1 | h1 | h1
  · rcases Nat.lt_trichotomy (qs.indexOf b) (qs.indexOf c) with h2 | h2 | h2
    · -- i < j < k
      have h := hcc _ _ _ h1 h2 hk
      rw [hga, hgb, hgc] at h
      exact ⟨fun _ => Or.inl ⟨h1, h2⟩, fun _ => h⟩
    · exact absurd h2 hjk
    · rcases Nat.lt_trichotomy (qs.indexOf a) (qs.indexOf c) with h3 | h3 | h3
      · -- i < k < j
        have h := hcc _ _ _ h3 h2 hj
        rw [hga, hgc, hgb] at h
        have hs := cross_swap a b c
        constructor
        · intro h0; linarith
        · intro hcy; exfalso; unfold Cyclic3 at hcy; omega
      · exact absurd h3 hik
      · -- k < i < j
        have h := hcc _ _ _ h3 h1 hj
        rw [hgc, hga, hgb] at h
        have he : cross a b c = cross c a b := by
          rw [cross_cyclic a b c, cross_cyclic b c a]
        constructor
        · intro _; exact Or.inr (Or.inr ⟨h3, h1⟩)
        · intro _; rw [he]; exact h
  · exact absurd h1 hij
  · rcases Nat.lt_trichotomy (qs.indexOf a) (qs.indexOf c) with h2 | h2 | h2
    · -- j < i < k
      have h := hcc _ _ _ h1 h2 hk
      rw [hgb, hga, hgc] at h
      have he : cross b a c = -cross a b c := by
        rw [cross_cyclic a b c]; rw [cross_swap b a c]
      constructor
      · intro h0; exfalso; rw [he] at h; linarith
      · intro hcy; exfalso; unfold Cyclic3 at hcy; omega
    · exact absurd h2 hik
    · rcases Nat.lt_trichotomy (qs.indexOf b) (qs.indexOf c) with h3 | h3 | h3
      · -- j < k < i
        have h := hcc _ _ _ h3 h2 hi
        rw [hgb, hgc, hga] at h
        have he : cross a b c = cross b c a := cross_cyclic a b c
        constructor
        · intro _; exact Or.inr (Or.inl ⟨h3, h2⟩)
        · intro _; rw [he]; exact h
      · exact absurd h3 hjk
      · -- k < j < i
        have h := hcc _ _ _ h3 h1 hi
        rw [hgc, hgb, hga] at h
        have he : cross c b a = -cross a b c := by
          unfold cross; ring
        constructor
        · intro h0; exfalso; rw [he] at h; linarith
        · intro hcy; exfalso; unfold Cyclic3 at hcy; omega

/-- Three distinct vertices of a strictly convex polygon are never
collinear. -/
lemma cross_ne_zero {qs : List Point} (hq : ConvexCCW qs) {a b c : Point}
    (ha : a ∈ qs) (hb : b ∈ qs) (hc : c ∈ qs)
    (hab : a ≠ b) (hbc : b ≠ c) (hac : a ≠ c) :
    cross a b c ≠ 0 := by
  intro h0
  have h1 := cross_pos_iff hq ha hb hc hab hbc hac
  have h2 := cross_pos_iff hq ha hc hb hac (Ne.symm hbc) hab
  have hs : cross a c b = -cross a b c := by
    rw [cross_swap a b c]; ring
  have hij : qs.indexOf a ≠ qs.indexOf b := by
    intro h
    exact hab ((List.indexOf_inj ha hb).mp h)
  have hjk : qs.indexOf b ≠ qs.indexOf c := by
    intro h
    exact hbc ((List.indexOf_inj hb hc).mp h)
  have hik : qs.indexOf a ≠ qs.indexOf c := by
    intro h
    exact hac ((List.indexOf_inj ha hc).mp h)
  rw [h0] at h1
  rw [hs, h0] at h2
  have : Cyclic3 (qs.indexOf a) (qs.indexOf b) (qs.indexOf c) ∨
      Cyclic3 (qs.indexOf a) (qs.indexOf c) (qs.indexOf b) := by
    unfold Cyclic3; omega
  rcases this with h | h
  · exact lt_irrefl 0 (h1.mpr h)
  · exact absurd (h2.mpr h) (by norm_num)

/-- The mirrored orientation dictionary for negative cross products. -/
lemma cross_neg_iff {qs : List Point} (hq : ConvexCCW qs) {a b c : Point}
    (ha : a ∈ qs) (hb : b ∈ qs) (hc : c ∈ qs)
    (hab : a ≠ b) (hbc : b ≠ c) (hac : a ≠ c) :
    cross a b c < 0 ↔
      Cyclic3 (qs.indexOf a) (qs.indexOf c) (qs.indexOf b) := by
  have hs : cross a c b = -cross a b c := by unfold cross; ring
  rw [← cross_pos_iff hq ha hc hb hac (Ne.symm hbc) hab]
  constructor <;> intro h <;> linarith

lemma indexOf_ne_of_ne {qs : List Point} {a b : Point} (ha : a ∈ qs)
    (hb : b ∈ qs) (h : a ≠ b) : qs.indexOf a ≠ qs.indexOf b :=
  fun he => h ((List.indexOf_inj ha hb).mp he)


/-! ## The monotone-chain scan invariant -/

/-- Chord lemma for the upper chain: of two points strictly above the chord
`p₀ → pm` (or with `v = pm` itself), the lexicographically earlier one lies
strictly left of the directed line `p₀ → v`. -/
lemma chordK3 {qs : List Point} {p₀ : Point} (hq : ConvexCCW qs)
    (hp₀q : p₀ ∈ qs) {pm u v : Point} (hpmq : pm ∈ qs) (huq : u ∈ qs)
    (hvq : v ∈ qs) (h0u : PtLt p₀ u) (huv : PtLt u v)
    (hu : 0 < cross p₀ pm u)
    (hv : v = pm ∨ (PtLt v pm ∧ 0 < cross p₀ pm v)) :
    0 < cross p₀ v u := by
  rcases hv with rfl | ⟨hvm, hv⟩
  · exact hu
  · by_contra hcon
    have h0v : PtLt p₀ v := h0u.trans' huv
    have hum : PtLt u pm := huv.trans' hvm
    have h0m : PtLt p₀ pm := h0v.trans' hvm
    have n0u : p₀ ≠ u := h0u.ne
    have n0v : p₀ ≠ v := h0v.ne
    have n0m : p₀ ≠ pm := h0m.ne
    have nuv : u ≠ v := huv.ne
    have num : u ≠ pm := hum.ne
    have nvm : v ≠ pm := hvm.ne
    have hneg : cross p₀ v u < 0 := by
      rcases (cross_ne_zero hq hp₀q hvq huq n0v (Ne.symm nuv) n0u).lt_or_lt
        with h | h
      · exact h
      · exact absurd h hcon
    have C1 := (cross_pos_iff hq hp₀q hpmq huq n0m (Ne.symm num) n0u).mp hu
    have C2 := (cross_pos_iff hq hp₀q hpmq hvq n0m (Ne.symm nvm) n0v).mp hv
    have C3 := (cross_neg_iff hq hp₀q hvq huq n0v (Ne.symm nuv) n0u).mp hneg
    have d1 := indexOf_ne_of_ne hp₀q hpmq n0m
    have d2 := indexOf_ne_of_ne hp₀q huq n0u
    have d3 := indexOf_ne_of_ne hp₀q hvq n0v
    have d4 := indexOf_ne_of_ne huq hvq nuv
    have d5 := indexOf_ne_of_ne huq hpmq num
    have d6 := indexOf_ne_of_ne hvq hpmq nvm
    have C4 : Cyclic3 (qs.indexOf u) (qs.indexOf v) (qs.indexOf pm) := by
      unfold Cyclic3 at C1 C2 C3 ⊢
      omega
    have D : 0 < cross u v pm :=
      (cross_pos_iff hq huq hvq hpmq nuv nvm num).mpr C4
    have hsw : cross p₀ v pm = -cross p₀ pm v := cross_swap p₀ v pm
    exact bridgeM2 hneg (by linarith) D h0u.x_le huv.x_le hvm.x_le

/-- Chord lemma for the lower chain: of two points strictly below the chord
`p₀ → pN`, the lexicographically earlier one lies strictly left of the
directed line `p₀ → b` towards the later one. -/
lemma chordK3L {qs : List Point} {p₀ : Point} (hq : ConvexCCW qs)
    (hp₀q : p₀ ∈ qs) {pN b b' : Point} (hpNq : pN ∈ qs) (hbq : b ∈ qs)
    (hb'q : b' ∈ qs) (h0b : PtLt p₀ b) (hbb' : PtLt b b')
    (hb'N : PtLt b' pN) (hbBel : cross p₀ pN b < 0)
    (hb'Bel : cross p₀ pN b' < 0) : 0 < cross p₀ b b' := by
  by_contra hcon
  have h0b' : PtLt p₀ b' := h0b.trans' hbb'
  have hbN : PtLt b pN := hbb'.trans' hb'N
  have h0N : PtLt p₀ pN := h0b.trans' hbN
  have n0b : p₀ ≠ b := h0b.ne
  have n0b' : p₀ ≠ b' := h0b'.ne
  have n0N : p₀ ≠ pN := h0N.ne
  have nbb' : b ≠ b' := hbb'.ne
  have nbN : b ≠ pN := hbN.ne
  have nb'N : b' ≠ pN := hb'N.ne
  have hneg : cross p₀ b b' < 0 := by
    rcases (cross_ne_zero hq hp₀q hbq hb'q n0b nbb' n0b').lt_or_lt with h | h
    · exact h
    · exact absurd h hcon
  have C1 := (cross_neg_iff hq hp₀q hpNq hbq n0N (Ne.symm nbN) n0b).mp hbBel
  have C2 := (cross_neg_iff hq hp₀q hpNq hb'q n0N (Ne.symm nb'N) n0b').mp hb'Bel
  have C3 := (cross_neg_iff hq hp₀q hbq hb'q n0b nbb' n0b').mp hneg
  have d1 := indexOf_ne_of_ne hp₀q hpNq n0N
  have d2 := indexOf_ne_of_ne hp₀q hbq n0b
  have d3 := indexOf_ne_of_ne hp₀q hb'q n0b'
  have d4 := indexOf_ne_of_ne hbq hb'q nbb'
  have d5 := indexOf_ne_of_ne hbq hpNq nbN
  have d6 := indexOf_ne_of_ne hb'q hpNq nb'N
  have C4 : Cyclic3 (qs.indexOf b) (qs.indexOf pN) (qs.indexOf b') := by
    unfold Cyclic3 at C1 C2 C3 ⊢
    omega
  have D : 0 < cross b pN b' :=
    (cross_pos_iff hq hbq hpNq hb'q nbN (Ne.symm nb'N) nbb').mpr C4
  have h1 : 0 < cross p₀ b' b := by
    have := cross_swap p₀ b b'
    linarith
  have h2 : 0 < cross p₀ b' pN := by
    have := cross_swap p₀ b' pN
    linarith
  have h3 : cross b b' pN < 0 := by
    have := cross_swap b b' pN
    linarith
  exact bridgeM1 h1 h2 h3 h0b.x_le hbb'.x_le hb'N.x_le

/-- A mid point strictly above the chord to the newly pushed point was
already strictly above the chord to the previous chain top. -/
lemma chordK1 {qs : List Point} {p₀ : Point} (hq : ConvexCCW qs)
    (hp₀q : p₀ ∈ qs) {pm p z : Point} (hpmq : pm ∈ qs) (hpq : p ∈ qs)
    (hzq : z ∈ qs) (h0z : PtLt p₀ z) (hzm : PtLt z pm) (hmp : PtLt pm p)
    (hnew : 0 < cross p₀ p z) : 0 < cross p₀ pm z := by
  by_contra hcon
  have h0m : PtLt p₀ pm := h0z.trans' hzm
  have hzp : PtLt z p := hzm.trans' hmp
  have h0p : PtLt p₀ p := h0m.trans' hmp
  have n0z : p₀ ≠ z := h0z.ne
  have n0m : p₀ ≠ pm := h0m.ne
  have n0p : p₀ ≠ p := h0p.ne
  have nzm : z ≠ pm := hzm.ne
  have nzp : z ≠ p := hzp.ne
  have nmp : pm ≠ p := hmp.ne
  have hneg : cross p₀ pm z < 0 := by
    rcases (cross_ne_zero hq hp₀q hpmq hzq n0m (Ne.symm nzm) n0z).lt_or_lt
      with h | h
    · exact h
    · exact absurd h hcon
  have A1 := (cross_pos_iff hq hp₀q hpq hzq n0p (Ne.symm nzp) n0z).mp hnew
  have A2 := (cross_neg_iff hq hp₀q hpmq hzq n0m (Ne.symm nzm) n0z).mp hneg
  have d1 := indexOf_ne_of_ne hp₀q hpmq n0m
  have d2 := indexOf_ne_of_ne hp₀q hzq n0z
  have d3 := indexOf_ne_of_ne hp₀q hpq n0p
  have d4 := indexOf_ne_of_ne hzq hpmq nzm
  have d5 := indexOf_ne_of_ne hzq hpq nzp
  have d6 := indexOf_ne_of_ne hpmq hpq nmp
  have A3 : Cyclic3 (qs.indexOf z) (qs.indexOf pm) (qs.indexOf p) := by
    unfold Cyclic3 at A1 A2 ⊢
    omega
  have D : 0 < cross z pm p :=
    (cross_pos_iff hq hzq hpmq hpq nzm nmp nzp).mpr A3
  have h1 : 0 < cross p₀ z pm := by
    have := cross_swap p₀ z pm
    linarith
  have h2 : cross p₀ z p < 0 := by
    have := cross_swap p₀ z p
    linarith
  exact bridgeM3 h1 h2 D h0z.x_le hzm.x_le hmp.x_le

/-- When the incoming point `p` sees the chain top `v` above its chord, the
pop test against the entry `w` under `v` fails (the chain keeps `v`). -/
lemma popStop {qs : List Point} {p₀ : Point} (hq : ConvexCCW qs)
    (hp₀q : p₀ ∈ qs) {w v p : Point} (hwq : w ∈ qs) (hvq : v ∈ qs)
    (hpq : p ∈ qs) (h0w : PtLt p₀ w) (hwv : PtLt w v) (hvp : PtLt v p)
    (hvw : 0 < cross p₀ v w) (hvAb : 0 < cross p₀ p v) :
    cross w v p < 0 := by
  have h0v : PtLt p₀ v := h0w.trans' hwv
  have h0p : PtLt p₀ p := h0v.trans' hvp
  have hwp : PtLt w p := hwv.trans' hvp
  have n0w : p₀ ≠ w := h0w.ne
  have n0v : p₀ ≠ v := h0v.ne
  have n0p : p₀ ≠ p := h0p.ne
  have nwv : w ≠ v := hwv.ne
  have nwp : w ≠ p := hwp.ne
  have nvp : v ≠ p := hvp.ne
  have C1 := (cross_pos_iff hq hp₀q hvq hwq n0v (Ne.symm nwv) n0w).mp hvw
  have C2 := (cross_pos_iff hq hp₀q hpq hvq n0p (Ne.symm nvp) n0v).mp hvAb
  have d1 := indexOf_ne_of_ne hp₀q hwq n0w
  have d2 := indexOf_ne_of_ne hp₀q hvq n0v
  have d3 := indexOf_ne_of_ne hp₀q hpq n0p
  have d4 := indexOf_ne_of_ne hwq hvq nwv
  have d5 := indexOf_ne_of_ne hwq hpq nwp
  have d6 := indexOf_ne_of_ne hvq hpq nvp
  have C3 : Cyclic3 (qs.indexOf w) (qs.indexOf p) (qs.indexOf v) := by
    unfold Cyclic3 at C1 C2 ⊢
    omega
  have D : 0 < cross w p v :=
    (cross_pos_iff hq hwq hpq hvq nwp (Ne.symm nvp) nwv).mpr C3
  have := cross_swap w v p
  linarith

/-- When the incoming point `p` sees the chain top `v` on or below its
chord, the pop test against the entry `w` under `v` succeeds. -/
lemma popKeep {qs : List Point} {p₀ : Point} (hq : ConvexCCW qs)
    (hp₀q : p₀ ∈ qs) {w v p : Point} (hwq : w ∈ qs) (hvq : v ∈ qs)
    (hpq : p ∈ qs) (h0w : PtLt p₀ w) (hwv : PtLt w v) (hvp : PtLt v p)
    (hvw : 0 < cross p₀ v w) (hvBel : cross p₀ p v < 0) :
    0 ≤ cross w v p := by
  by_contra hcon
  rw [not_le] at hcon
  have h2 : 0 < cross p₀ v p := by
    have := cross_swap p₀ v p
    linarith
  exact bridgeM1 hvw h2 hcon h0w.x_le hwv.x_le hvp.x_le

/-- Survival transfers down the chain: if the chain top is above the chord
to `p`, so is every deeper chain entry. -/
lemma newAbove {qs : List Point} {p₀ : Point} (hq : ConvexCCW qs)
    (hp₀q : p₀ ∈ qs) {v p z : Point} (hvq : v ∈ qs) (hpq : p ∈ qs)
    (hzq : z ∈ qs) (h0z : PtLt p₀ z) (hzv : PtLt z v) (hvp : PtLt v p)
    (hvAb : 0 < cross p₀ p v) (hzv_pos : 0 < cross p₀ v z) :
    0 < cross p₀ p z := by
  have h0v : PtLt p₀ v := h0z.trans' hzv
  have h0p : PtLt p₀ p := h0v.trans' hvp
  have hzp : PtLt z p := hzv.trans' hvp
  have n0z : p₀ ≠ z := h0z.ne
  have n0v : p₀ ≠ v := h0v.ne
  have n0p : p₀ ≠ p := h0p.ne
  have nzv : z ≠ v := hzv.ne
  have nzp : z ≠ p := hzp.ne
  have nvp : v ≠ p := hvp.ne
  have C1 := (cross_pos_iff hq hp₀q hpq hvq n0p (Ne.symm nvp) n0v).mp hvAb
  have C2 := (cross_pos_iff hq hp₀q hvq hzq n0v (Ne.symm nzv) n0z).mp hzv_pos
  have d1 := indexOf_ne_of_ne hp₀q hzq n0z
  have d2 := indexOf_ne_of_ne hp₀q hvq n0v
  have d3 := indexOf_ne_of_ne hp₀q hpq n0p
  have d4 := indexOf_ne_of_ne hzq hvq nzv
  have d5 := indexOf_ne_of_ne hzq hpq nzp
  have d6 := indexOf_ne_of_ne hvq hpq nvp
  have C3 : Cyclic3 (qs.indexOf p₀) (qs.indexOf p) (qs.indexOf z) := by
    unfold Cyclic3 at C1 C2 ⊢
    omega
  exact (cross_pos_iff hq hp₀q hpq hzq n0p (Ne.symm nzp) n0z).mpr C3

/-- The inner pop loop, run on a chain stack for the chord `p₀ → pm` with
incoming point `p`, keeps exactly the chain entries strictly above the
chord `p₀ → p` (and always the sentinel `p₀`). -/
lemma popwalk {qs : List Point} {p₀ : Point} (hq : ConvexCCW qs)
    (hp₀q : p₀ ∈ qs) {pm p : Point} (hpmq : pm ∈ qs) (hpq : p ∈ qs)
    (h0m : PtLt p₀ pm) (hmp : PtLt pm p) :
    ∀ (ws : List Point) (v : Point), v ∈ qs → PtLt p₀ v →
    (v = pm ∨ (PtLt v pm ∧ 0 < cross p₀ pm v)) →
    (∀ z ∈ ws, z ∈ qs ∧ PtLt p₀ z ∧ PtLt z pm ∧ 0 < cross p₀ pm z) →
    ((v :: ws).Pairwise fun a b => PtLt b a) →
    hullPop p (v :: (ws ++ [p₀])) =
      ((v :: ws).filter fun u => decide (0 < cross p₀ p u)) ++ [p₀] := by
  intro ws
  induction ws with
  | nil =>
    intro v hvq h0v hv _ _
    have hvp : PtLt v p := by
      rcases hv with rfl | ⟨h1, _⟩
      · exact hmp
      · exact h1.trans' hmp
    have h0p : PtLt p₀ p := h0v.trans' hvp
    have hne : cross p₀ p v ≠ 0 :=
      cross_ne_zero hq hp₀q hpq hvq h0p.ne (Ne.symm hvp.ne) h0v.ne
    have hunf : hullPop p (v :: (([] : List Point) ++ [p₀])) =
        if hullPopTest p₀ v p then hullPop p [p₀] else [v, p₀] := rfl
    rcases hne.lt_or_lt with hbelow | habove
    · have htest : hullPopTest p₀ v p := by
        rw [hullPopTest_iff]
        have := cross_swap p₀ v p
        linarith
      rw [hunf, if_pos htest]
      have hd : (decide (0 < cross p₀ p v)) = false :=
        decide_eq_false (by linarith)
      simp [List.filter_cons, hd, hullPop]
    · have htest : ¬ hullPopTest p₀ v p := by
        rw [hullPopTest_iff, not_le]
        have := cross_swap p₀ v p
        linarith
      rw [hunf, if_neg htest]
      have hd : (decide (0 < cross p₀ p v)) = true := decide_eq_true habove
      simp [List.filter_cons, hd]
  | cons w ws' ih =>
    intro v hvq h0v hv hws hdesc
    obtain ⟨hwq, h0w, hwm, hwAb⟩ := hws w (List.mem_cons_self _ _)
    have hpar := List.pairwise_cons.mp hdesc
    have hwv : PtLt w v := hpar.1 w (List.mem_cons_self _ _)
    have hvp : PtLt v p := by
      rcases hv with rfl | ⟨h1, _⟩
      · exact hmp
      · exact h1.trans' hmp
    have h0p : PtLt p₀ p := h0v.trans' hvp
    have hvw : 0 < cross p₀ v w :=
      chordK3 hq hp₀q hpmq hwq hvq h0w hwv hwAb hv
    have hne : cross p₀ p v ≠ 0 :=
      cross_ne_zero hq hp₀q hpq hvq h0p.ne (Ne.symm hvp.ne) h0v.ne
    have hunf : hullPop p (v :: ((w :: ws') ++ [p₀])) =
        if hullPopTest w v p then hullPop p (w :: (ws' ++ [p₀]))
        else (v :: w :: ws') ++ [p₀] := rfl
    rcases hne.lt_or_lt with hbelow | habove
    · have htest : hullPopTest w v p := by
        rw [hullPopTest_iff]
        exact popKeep hq hp₀q hwq hvq hpq h0w hwv hvp hvw hbelow
      rw [hunf, if_pos htest]
      rw [ih w hwq h0w (Or.inr ⟨hwm, hwAb⟩)
        (fun z hz => hws z (List.mem_cons_of_mem _ hz)) hpar.2]
      have hd : (decide (0 < cross p₀ p v)) = false :=
        decide_eq_false (by linarith)
      simp [List.filter_cons, hd]
    · have htest : ¬ hullPopTest w v p := by
        rw [hullPopTest_iff, not_le]
        exact popStop hq hp₀q hwq hvq hpq h0w hwv hvp hvw habove
      rw [hunf, if_neg htest]
      have hall : ∀ z ∈ v :: w :: ws',
          (fun u => decide (0 < cross p₀ p u)) z = true := by
        intro z hz
        rcases List.mem_cons.mp hz with rfl | hz'
        · exact decide_eq_true habove
        · obtain ⟨hzq, h0z, hzm, hzAb⟩ := hws z hz'
          have hzv : PtLt z v := hpar.1 z hz'
          have hzv_pos : 0 < cross p₀ v z :=
            chordK3 hq hp₀q hpmq hzq hvq h0z hzv hzAb hv
          exact decide_eq_true
            (newAbove hq hp₀q hvq hpq hzq h0z hzv hvp habove hzv_pos)
      rw [List.filter_eq_self.mpr hall]

/-- One full `hullStep` pop phase transforms the chord-`pm` stack into the
chord-`p` stack over the enlarged processed middle. -/
lemma stack_step {qs : List Point} {p₀ : Point} (hq : ConvexCCW qs)
    (hp₀q : p₀ ∈ qs) {pm p : Point} (hpmq : pm ∈ qs) (hpq : p ∈ qs)
    (h0m : PtLt p₀ pm) (hmp : PtLt pm p) {mid : List Point}
    (hmid : ∀ z ∈ mid, z ∈ qs ∧ PtLt p₀ z ∧ PtLt z pm)
    (hmid_asc : mid.Pairwise PtLt) :
    hullPop p
        (pm :: ((mid.reverse.filter fun u => decide (0 < cross p₀ pm u))
          ++ [p₀])) =
      ((mid ++ [pm]).reverse.filter fun u => decide (0 < cross p₀ p u))
        ++ [p₀] := by
  have hW : ∀ z ∈ mid.reverse.filter fun u => decide (0 < cross p₀ pm u),
      z ∈ qs ∧ PtLt p₀ z ∧ PtLt z pm ∧ 0 < cross p₀ pm z := by
    intro z hz
    have h1 := List.mem_of_mem_filter hz
    have h2 := List.of_mem_filter hz
    obtain ⟨hzq, h0z, hzm⟩ := hmid z (List.mem_reverse.mp h1)
    exact ⟨hzq, h0z, hzm, of_decide_eq_true h2⟩
  have hdesc : ((pm ::
      mid.reverse.filter fun u => decide (0 < cross p₀ pm u)).Pairwise
        fun a b => PtLt b a) := by
    rw [List.pairwise_cons]
    refine ⟨fun z hz => (hW z hz).2.2.1, ?_⟩
    exact (List.pairwise_reverse.mpr hmid_asc).filter _
  rw [popwalk hq hp₀q hpmq hpq h0m hmp _ pm hpmq h0m (Or.inl rfl) hW hdesc]
  congr 1
  have hrev : (mid ++ [pm]).reverse = pm :: mid.reverse := by
    simp
  rw [hrev, List.filter_cons, List.filter_cons]
  have htail : (mid.reverse.filter fun u => decide (0 < cross p₀ pm u)).filter
      (fun u => decide (0 < cross p₀ p u)) =
      mid.reverse.filter fun u => decide (0 < cross p₀ p u) := by
    rw [List.filter_filter]
    apply List.filter_congr
    intro z hz
    obtain ⟨hzq, h0z, hzm⟩ := hmid z (List.mem_reverse.mp hz)
    by_cases hnew : 0 < cross p₀ p z
    · have hold : 0 < cross p₀ pm z :=
        chordK1 hq hp₀q hpmq hpq hzq h0z hzm hmp hnew
      simp [hnew, hold]
    · simp [hnew]
  rw [htail]

/-- Scan invariant: folding the remaining sorted points (ending in the
global maximum `pN`) over a chord-`pm` stack produces the chord-`pN` stack
over the whole middle. -/
lemma scan_go {qs : List Point} {p₀ : Point} (hq : ConvexCCW qs)
    (hp₀q : p₀ ∈ qs) {pN : Point} (hpNq : pN ∈ qs) :
    ∀ (rest mid : List Point) (pm : Point),
    (∀ z ∈ mid, z ∈ qs ∧ PtLt p₀ z ∧ PtLt z pm) →
    mid.Pairwise PtLt →
    pm ∈ qs → PtLt p₀ pm →
    (∀ z ∈ rest, z ∈ qs ∧ PtLt pm z ∧ PtLt z pN) →
    rest.Pairwise PtLt →
    PtLt pm pN →
    (rest ++ [pN]).foldl hullStep
        (pm :: ((mid.reverse.filter fun u => decide (0 < cross p₀ pm u))
          ++ [p₀])) =
      pN :: (((mid ++ pm :: rest).reverse.filter
          fun u => decide (0 < cross p₀ pN u)) ++ [p₀]) := by
  intro rest
  induction rest with
  | nil =>
    intro mid pm hmid hmid_asc hpmq h0m _ _ hpmN
    simp only [List.nil_append, List.foldl_cons, List.foldl_nil]
    show hullStep _ pN = _
    unfold hullStep
    rw [stack_step hq hp₀q hpmq hpNq h0m hpmN hmid hmid_asc]
  | cons p rest' ih =>
    intro mid pm hmid hmid_asc hpmq h0m hrest hrest_asc hpmN
    obtain ⟨hpq, hmp, hppN⟩ := hrest p (List.mem_cons_self _ _)
    have hrpar := List.pairwise_cons.mp hrest_asc
    rw [List.cons_append, List.foldl_cons]
    have hstep : hullStep
        (pm :: ((mid.reverse.filter fun u => decide (0 < cross p₀ pm u))
          ++ [p₀])) p =
        p :: (((mid ++ [pm]).reverse.filter
          fun u => decide (0 < cross p₀ p u)) ++ [p₀]) := by
      unfold hullStep
      rw [stack_step hq hp₀q hpmq hpq h0m hmp hmid hmid_asc]
    rw [hstep]
    have h1 : ∀ z ∈ mid ++ [pm], z ∈ qs ∧ PtLt p₀ z ∧ PtLt z p := by
      intro z hz
      rcases List.mem_append.mp hz with hz | hz
      · obtain ⟨a, b, c⟩ := hmid z hz
        exact ⟨a, b, c.trans' hmp⟩
      · rw [List.mem_singleton] at hz
        subst hz
        exact ⟨hpmq, h0m, hmp⟩
    have h2 : (mid ++ [pm]).Pairwise PtLt := by
      rw [List.pairwise_append]
      refine ⟨hmid_asc, List.pairwise_singleton _ _, ?_⟩
      intro a ha b hb
      rw [List.mem_singleton] at hb
      subst hb
      exact (hmid a ha).2.2
    have h4 : ∀ z ∈ rest', z ∈ qs ∧ PtLt p z ∧ PtLt z pN := by
      intro z hz
      obtain ⟨a, _, c⟩ := hrest z (List.mem_cons_of_mem _ hz)
      exact ⟨a, hrpar.1 z hz, c⟩
    have hih := ih (mid ++ [pm]) p h1 h2 hpq (h0m.trans' hmp) h4 hrpar.2 hppN
    rw [hih]
    simp [List.append_assoc]

/-- The complete upper scan on a sorted convex-position list: the final
stack is the lex-max, the strictly-above-chord middle points in reverse
order, then the lex-min. -/
lemma hullScan_spec {qs : List Point} {p₀ pN : Point} {midFull : List Point}
    (hq : ConvexCCW qs) (hp₀q : p₀ ∈ qs) (hpNq : pN ∈ qs)
    (hmid : ∀ z ∈ midFull, z ∈ qs ∧ PtLt p₀ z ∧ PtLt z pN)
    (hmid_asc : midFull.Pairwise PtLt) (h0N : PtLt p₀ pN) :
    hullScan ((p₀ :: midFull) ++ [pN]) =
      pN :: ((midFull.reverse.filter fun u => decide (0 < cross p₀ pN u))
        ++ [p₀]) := by
  unfold hullScan
  cases midFull with
  | nil => rfl
  | cons m₁ mrest =>
    simp only [List.cons_append, List.foldl_cons]
    obtain ⟨hm₁q, h0m₁, hm₁N⟩ := hmid m₁ (List.mem_cons_self _ _)
    have hmpar := List.pairwise_cons.mp hmid_asc
    have hsg := scan_go hq hp₀q hpNq mrest [] m₁
      (by intro z hz; simp at hz)
      List.Pairwise.nil hm₁q h0m₁
      (by
        intro z hz
        obtain ⟨a, _, c⟩ := hmid z (List.mem_cons_of_mem _ hz)
        exact ⟨a, hmpar.1 z hz, c⟩)
      hmpar.2 hm₁N
    simpa using hsg

/-! ## Negation transport: the lower scan is the upper scan of the
point-reflected input -/

/-- Point reflection through the origin. -/
def negP (p : Point) : Point := ⟨-p.x, -p.y⟩

lemma negP_negP (p : Point) : negP (negP p) = p := by
  cases p
  simp [negP]

lemma cross_negP (a b c : Point) :
    cross (negP a) (negP b) (negP c) = cross a b c := by
  unfold cross negP
  ring

lemma hullPopTest_negP (r q p : Point) :
    hullPopTest (negP r) (negP q) (negP p) ↔ hullPopTest r q p := by
  unfold hullPopTest negP
  dsimp only
  have e1 : (-q.x - -r.x) * (-p.y - -r.y) = (q.x - r.x) * (p.y - r.y) := by
    ring
  have e2 : (-q.y - -r.y) * (-p.x - -r.x) = (q.y - r.y) * (p.x - r.x) := by
    ring
  constructor <;> intro h <;> linarith

lemma ptLt_negP (a b : Point) : PtLt (negP b) (negP a) ↔ PtLt a b := by
  unfold PtLt negP
  dsimp only
  constructor
  · rintro (h | ⟨e, h⟩)
    · exact Or.inl (by linarith)
    · exact Or.inr ⟨by linarith, by linarith⟩
  · rintro (h | ⟨e, h⟩)
    · exact Or.inl (by linarith)
    · exact Or.inr ⟨by linarith, by linarith⟩

lemma convexCCW_negP {qs : List Point} (hq : ConvexCCW qs) :
    ConvexCCW (qs.map negP) := by
  obtain ⟨hlen, hcc⟩ := hq
  refine ⟨by simpa using hlen, ?_⟩
  intro i j k h1 h2 h3
  have h3' : k < qs.length := by simpa using h3
  have h := hcc i j k h1 h2 h3'
  simpa [List.get_map, cross_negP] using h

lemma hullPop_negP (p : Point) :
    ∀ l : List Point, hullPop (negP p) (l.map negP) = (hullPop p l).map negP
  | [] => rfl
  | [q] => rfl
  | q :: r :: rest => by
    show hullPop (negP p) (negP q :: negP r :: rest.map negP) = _
    by_cases h : hullPopTest r q p
    · have h' : hullPopTest (negP r) (negP q) (negP p) :=
        (hullPopTest_negP r q p).mpr h
      rw [show hullPop (negP p) (negP q :: negP r :: rest.map negP) =
          if hullPopTest (negP r) (negP q) (negP p) then
            hullPop (negP p) (negP r :: rest.map negP)
          else negP q :: negP r :: rest.map negP from rfl, if_pos h']
      rw [show hullPop p (q :: r :: rest) =
          if hullPopTest r q p then hullPop p (r :: rest)
          else q :: r :: rest from rfl, if_pos h]
      exact hullPop_negP p (r :: rest)
    · have h' : ¬ hullPopTest (negP r) (negP q) (negP p) :=
        fun hc => h ((hullPopTest_negP r q p).mp hc)
      rw [show hullPop (negP p) (negP q :: negP r :: rest.map negP) =
          if hullPopTest (negP r) (negP q) (negP p) then
            hullPop (negP p) (negP r :: rest.map negP)
          else negP q :: negP r :: rest.map negP from rfl, if_neg h']
      rw [show hullPop p (q :: r :: rest) =
          if hullPopTest r q p then hullPop p (r :: rest)
          else q :: r :: rest from rfl, if_neg h]
      rfl

lemma foldl_hullStep_negP (l : List Point) :
    ∀ s : List Point,
      (l.map negP).foldl hullStep (s.map negP) =
        (l.foldl hullStep s).map negP := by
  induction l with
  | nil => intro s; rfl
  | cons a l ihl =>
    intro s
    rw [List.map_cons, List.foldl_cons, List.foldl_cons]
    have hstep : hullStep (s.map negP) (negP a) = (hullStep s a).map negP := by
      unfold hullStep
      rw [hullPop_negP]
      rfl
    rw [hstep, ihl]

lemma hullScan_negP (l : List Point) :
    hullScan (l.map negP) = (hullScan l).map negP := by
  unfold hullScan
  have := foldl_hullStep_negP l []
  simpa using this

/-- The lower scan (the upper scan of the reversed input): the final stack
is the lex-min, the strictly-below-chord middle points in input order
reversed back, then the lex-max. -/
lemma hullScan_reverse_spec {qs : List Point} {p₀ pN : Point}
    {midFull : List Point} (hq : ConvexCCW qs) (hp₀q : p₀ ∈ qs)
    (hpNq : pN ∈ qs)
    (hmid : ∀ z ∈ midFull, z ∈ qs ∧ PtLt p₀ z ∧ PtLt z pN)
    (hmid_asc : midFull.Pairwise PtLt) (h0N : PtLt p₀ pN) :
    hullScan (((p₀ :: midFull) ++ [pN]).reverse) =
      p₀ :: ((midFull.filter fun u => decide (0 < cross pN p₀ u)) ++ [pN]) := by
  have hq' := convexCCW_negP hq
  have h1 : negP pN ∈ qs.map negP := List.mem_map_of_mem _ hpNq
  have h2 : negP p₀ ∈ qs.map negP := List.mem_map_of_mem _ hp₀q
  have hmid' : ∀ z ∈ midFull.reverse.map negP,
      z ∈ qs.map negP ∧ PtLt (negP pN) z ∧ PtLt z (negP p₀) := by
    intro z hz
    rw [List.mem_map] at hz
    obtain ⟨w, hw, rfl⟩ := hz
    obtain ⟨hwq, h0w, hwN⟩ := hmid w (List.mem_reverse.mp hw)
    exact ⟨List.mem_map_of_mem _ hwq, (ptLt_negP w pN).mpr hwN,
      (ptLt_negP p₀ w).mpr h0w⟩
  have hasc' : (midFull.reverse.map negP).Pairwise PtLt := by
    rw [List.pairwise_map]
    have hrev : midFull.reverse.Pairwise (fun a b => PtLt b a) :=
      List.pairwise_reverse.mpr hmid_asc
    exact hrev.imp (fun hab => (ptLt_negP _ _).mpr hab)
  have h0N' : PtLt (negP pN) (negP p₀) := (ptLt_negP p₀ pN).mpr h0N
  have key := hullScan_spec hq' h1 h2 hmid' hasc' h0N'
  have hL : (negP pN :: midFull.reverse.map negP) ++ [negP p₀] =
      (((p₀ :: midFull) ++ [pN]).reverse).map negP := by
    simp
  rw [hL, hullScan_negP] at key
  have key2 := congrArg (List.map negP) key
  simp only [List.map_map] at key2
  rw [show (negP ∘ negP) = id from funext fun p => by
    simp [Function.comp, negP_negP]] at key2
  rw [List.map_id] at key2
  rw [key2]
  simp [List.filter_map, Function.comp, cross_negP, negP_negP,
    List.map_map]
  rw [show (negP ∘ negP) = id from funext fun p => by
    simp [Function.comp, negP_negP], List.map_id]
  apply List.filter_congr
  intro z hz
  simp [Function.comp, cross_negP]

/-- `makeHullPresorted` on a sorted convex-position list returns the upper
chain (lex-min, above-chord points) followed by the lower chain (lex-max,
below-chord points reversed). -/
lemma makeHullPresorted_spec {qs : List Point} {p₀ pN : Point}
    {midFull : List Point} (hq : ConvexCCW qs) (hp₀q : p₀ ∈ qs)
    (hpNq : pN ∈ qs)
    (hmid : ∀ z ∈ midFull, z ∈ qs ∧ PtLt p₀ z ∧ PtLt z pN)
    (hmid_asc : midFull.Pairwise PtLt) (h0N : PtLt p₀ pN) :
    makeHullPresorted ((p₀ :: midFull) ++ [pN]) =
      (p₀ :: (midFull.filter fun u => decide (0 < cross p₀ pN u))) ++
        (pN :: (midFull.filter fun u => decide (0 < cross pN p₀ u)).reverse) := by
  have hlen : ¬ ((p₀ :: midFull) ++ [pN]).length ≤ 1 := by
    simp
  unfold makeHullPresorted
  rw [if_neg hlen]
  dsimp only
  have hup : (hullScan ((p₀ :: midFull) ++ [pN])).tail.reverse =
      p₀ :: (midFull.filter fun u => decide (0 < cross p₀ pN u)) := by
    rw [hullScan_spec hq hp₀q hpNq hmid hmid_asc h0N]
    simp
  have hlo : (hullScan (((p₀ :: midFull) ++ [pN]).reverse)).tail.reverse =
      pN :: (midFull.filter fun u => decide (0 < cross pN p₀ u)).reverse := by
    rw [hullScan_reverse_spec hq hp₀q hpNq hmid hmid_asc h0N]
    simp
  rw [hup, hlo]
  have hne : ¬ (p₀.x = pN.x ∧ p₀.y = pN.y) := by
    rintro ⟨e1, e2⟩
    rcases h0N with h | ⟨e, h⟩ <;> linarith
  cases hA : (midFull.filter fun u => decide (0 < cross p₀ pN u)) with
  | nil =>
    cases hB : (midFull.filter fun u => decide (0 < cross pN p₀ u)).reverse with
    | nil => exact if_neg hne
    | cons b Bs => rfl
  | cons a As =>
    cases hB : (midFull.filter fun u => decide (0 < cross pN p₀ u)).reverse with
    | nil => rfl
    | cons b Bs => rfl

/-! ## Cyclic positions: rotating `qs` to start at the lex-min vertex -/

/-- Position of `x` in the rotation of `qs` that starts at `p₀`. -/
def rotKey (qs : List Point) (p₀ x : Point) : ℕ :=
  if qs.indexOf p₀ ≤ qs.indexOf x then qs.indexOf x - qs.indexOf p₀
  else qs.indexOf x + qs.length - qs.indexOf p₀

lemma rotKey_self (qs : List Point) (p₀ : Point) : rotKey qs p₀ p₀ = 0 := by
  simp [rotKey]

lemma rotKey_pos {qs : List Point} {p₀ x : Point} (hp₀ : p₀ ∈ qs)
    (hx : x ∈ qs) (hne : x ≠ p₀) : 0 < rotKey qs p₀ x := by
  have h₀ : qs.indexOf p₀ < qs.length := List.indexOf_lt_length.mpr hp₀
  have hxi : qs.indexOf x < qs.length := List.indexOf_lt_length.mpr hx
  have hne' : qs.indexOf x ≠ qs.indexOf p₀ := indexOf_ne_of_ne hx hp₀ hne
  unfold rotKey
  split_ifs with h <;> omega

/-- The rotated position order of two vertices other than `p₀` is decided
by their orientation as seen from `p₀`. -/
lemma rotKey_lt_iff {qs : List Point} (hq : ConvexCCW qs) {p₀ x y : Point}
    (hp₀ : p₀ ∈ qs) (hx : x ∈ qs) (hy : y ∈ qs)
    (hx0 : x ≠ p₀) (hy0 : y ≠ p₀) (hxy : x ≠ y) :
    rotKey qs p₀ x < rotKey qs p₀ y ↔ 0 < cross p₀ x y := by
  rw [cross_pos_iff hq hp₀ hx hy (Ne.symm hx0) hxy (Ne.symm hy0)]
  have h₀ : qs.indexOf p₀ < qs.length := List.indexOf_lt_length.mpr hp₀
  have hxi : qs.indexOf x < qs.length := List.indexOf_lt_length.mpr hx
  have hyi : qs.indexOf y < qs.length := List.indexOf_lt_length.mpr hy
  have hx0' : qs.indexOf x ≠ qs.indexOf p₀ := indexOf_ne_of_ne hx hp₀ hx0
  have hy0' : qs.indexOf y ≠ qs.indexOf p₀ := indexOf_ne_of_ne hy hp₀ hy0
  have hxy' : qs.indexOf x ≠ qs.indexOf y := indexOf_ne_of_ne hx hy hxy
  unfold rotKey Cyclic3
  split_ifs <;> omega

lemma rotKey_getElem {qs : List Point} (hnd : qs.Nodup) {p₀ : Point}
    (hp₀ : p₀ ∈ qs) {m k : ℕ} (hm : m < qs.length)
    (hmk : m = (k + qs.indexOf p₀) % qs.length) (hk : k < qs.length) :
    rotKey qs p₀ qs[m] = k := by
  have h₀ : qs.indexOf p₀ < qs.length := List.indexOf_lt_length.mpr hp₀
  have hidx : qs.indexOf qs[m] = m := List.indexOf_getElem hnd m hm
  unfold rotKey
  rw [hidx]
  rcases Nat.lt_or_ge (k + qs.indexOf p₀) qs.length with hlt | hge
  · rw [Nat.mod_eq_of_lt hlt] at hmk
    split_ifs with h <;> omega
  · have hm2 : (k + qs.indexOf p₀) % qs.length =
        k + qs.indexOf p₀ - qs.length := by
      rw [Nat.mod_eq_sub_mod hge, Nat.mod_eq_of_lt (by omega)]
    rw [hm2] at hmk
    split_ifs with h <;> omega

/-- The rotation of `qs` starting at `p₀` is sorted by rotated position. -/
lemma sorted_rotate {qs : List Point} (hq : ConvexCCW qs) {p₀ : Point}
    (hp₀ : p₀ ∈ qs) :
    (qs.rotate (qs.indexOf p₀)).Pairwise
      (fun x y => rotKey qs p₀ x < rotKey qs p₀ y) := by
  have hnd := hq.nodup
  rw [List.pairwise_iff_getElem]
  intro i j hi hj hij
  rw [List.length_rotate] at hi hj
  rw [List.getElem_rotate qs _ i (by rw [List.length_rotate]; exact hi)]
  rw [List.getElem_rotate qs _ j (by rw [List.length_rotate]; exact hj)]
  rw [rotKey_getElem hnd hp₀ (Nat.mod_lt _ (by omega)) rfl hi]
  rw [rotKey_getElem hnd hp₀ (Nat.mod_lt _ (by omega)) rfl hj]
  exact hij

/-- The chain list `p₀ :: B ++ pN :: A.reverse` (below-chord points in lex
order, then the lex-max, then above-chord points in reverse lex order) is
sorted by rotated position. -/
lemma sorted_chains {qs : List Point} (hq : ConvexCCW qs)
    {p₀ pN : Point} {midFull : List Point} (hp₀ : p₀ ∈ qs) (hpN : pN ∈ qs)
    (hmid : ∀ z ∈ midFull, z ∈ qs ∧ PtLt p₀ z ∧ PtLt z pN)
    (hmid_asc : midFull.Pairwise PtLt) (h0N : PtLt p₀ pN) :
    (p₀ :: ((midFull.filter fun u => decide (0 < cross pN p₀ u)) ++
        (pN :: (midFull.filter fun u => decide (0 < cross p₀ pN u)).reverse))).Pairwise
      (fun x y => rotKey qs p₀ x < rotKey qs p₀ y) := by
  have hBfacts : ∀ z ∈ midFull.filter fun u => decide (0 < cross pN p₀ u),
      z ∈ qs ∧ PtLt p₀ z ∧ PtLt z pN ∧ 0 < cross pN p₀ z := by
    intro z hz
    obtain ⟨hzq, h0z, hzN⟩ := hmid z (List.mem_of_mem_filter hz)
    have h2 := List.of_mem_filter hz
    exact ⟨hzq, h0z, hzN, of_decide_eq_true h2⟩
  have hAfacts : ∀ z ∈ midFull.filter fun u => decide (0 < cross p₀ pN u),
      z ∈ qs ∧ PtLt p₀ z ∧ PtLt z pN ∧ 0 < cross p₀ pN z := by
    intro z hz
    obtain ⟨hzq, h0z, hzN⟩ := hmid z (List.mem_of_mem_filter hz)
    have h2 := List.of_mem_filter hz
    exact ⟨hzq, h0z, hzN, of_decide_eq_true h2⟩
  have hRpN : ∀ z ∈ midFull.filter fun u => decide (0 < cross pN p₀ u),
      rotKey qs p₀ z < rotKey qs p₀ pN := by
    intro z hz
    obtain ⟨hzq, h0z, hzN, hzBel⟩ := hBfacts z hz
    rw [rotKey_lt_iff hq hp₀ hzq hpN (Ne.symm h0z.ne) (Ne.symm h0N.ne) hzN.ne]
    rw [← cross_cyclic pN p₀ z]
    exact hzBel
  have hpNR : ∀ z ∈ midFull.filter fun u => decide (0 < cross p₀ pN u),
      rotKey qs p₀ pN < rotKey qs p₀ z := by
    intro z hz
    obtain ⟨hzq, h0z, hzN, hzAb⟩ := hAfacts z hz
    rw [rotKey_lt_iff hq hp₀ hpN hzq (Ne.symm h0N.ne) (Ne.symm h0z.ne)
      (Ne.symm hzN.ne)]
    exact hzAb
  rw [List.pairwise_cons]
  constructor
  · intro z hz
    rw [rotKey_self]
    rcases List.mem_append.mp hz with hz | hz
    · obtain ⟨hzq, h0z, _, _⟩ := hBfacts z hz
      exact rotKey_pos hp₀ hzq (Ne.symm h0z.ne)
    · rcases List.mem_cons.mp hz with rfl | hz
      · exact rotKey_pos hp₀ hpN (Ne.symm h0N.ne)
      · obtain ⟨hzq, h0z, _, _⟩ := hAfacts z (List.mem_reverse.mp hz)
        exact rotKey_pos hp₀ hzq (Ne.symm h0z.ne)
  · rw [List.pairwise_append]
    refine ⟨?_, ?_, ?_⟩
    · refine List.Pairwise.imp_of_mem ?_ (hmid_asc.filter _)
      intro a b ha hb hab
      obtain ⟨haq, h0a, haN, haBel⟩ := hBfacts a ha
      obtain ⟨hbq, h0b, hbN, hbBel⟩ := hBfacts b hb
      rw [rotKey_lt_iff hq hp₀ haq hbq (Ne.symm h0a.ne) (Ne.symm h0b.ne)
        hab.ne]
      have ha' : cross p₀ pN a < 0 := by
        have := cross_cyclic pN p₀ a
        have h2 := cross_swap p₀ a pN
        have h3 := cross_cyclic p₀ a pN
        nlinarith [haBel]
      have hb' : cross p₀ pN b < 0 := by
        have := cross_cyclic pN p₀ b
        have h2 := cross_swap p₀ b pN
        have h3 := cross_cyclic p₀ b pN
        nlinarith [hbBel]
      exact chordK3L hq hp₀ hpN haq hbq h0a hab hbN ha' hb'
    · rw [List.pairwise_cons]
      refine ⟨fun z hz => hpNR z (List.mem_reverse.mp hz), ?_⟩
      rw [List.pairwise_reverse]
      refine List.Pairwise.imp_of_mem ?_ (hmid_asc.filter _)
      intro a b ha hb hab
      obtain ⟨haq, h0a, haN, haAb⟩ := hAfacts a ha
      obtain ⟨hbq, h0b, hbN, hbAb⟩ := hAfacts b hb
      show rotKey qs p₀ b < rotKey qs p₀ a
      rw [rotKey_lt_iff hq hp₀ hbq haq (Ne.symm h0b.ne) (Ne.symm h0a.ne)
        (Ne.symm hab.ne)]
      exact chordK3 hq hp₀ hpN haq hbq h0a hab haAb (Or.inr ⟨hbN, hbAb⟩)
    · intro b hb y hy
      rcases List.mem_cons.mp hy with rfl | hy
      · exact hRpN b hb
      · exact Nat.lt_trans (hRpN b hb) (hpNR y (List.mem_reverse.mp hy))

/-- Rotating `qs` to start at the lex-min vertex yields exactly the chain
list `p₀ :: B ++ pN :: A.reverse`. -/
lemma rotate_eq_chains {qs : List Point} (hq : ConvexCCW qs)
    {p₀ pN : Point} {midFull : List Point} (hp₀ : p₀ ∈ qs) (hpN : pN ∈ qs)
    (hmid : ∀ z ∈ midFull, z ∈ qs ∧ PtLt p₀ z ∧ PtLt z pN)
    (hmid_asc : midFull.Pairwise PtLt) (h0N : PtLt p₀ pN)
    (hperm : List.Perm ((p₀ :: midFull) ++ [pN]) qs) :
    qs.rotate (qs.indexOf p₀) =
      p₀ :: ((midFull.filter fun u => decide (0 < cross pN p₀ u)) ++
        (pN :: (midFull.filter fun u => decide (0 < cross p₀ pN u)).reverse)) := by
  haveI inst : IsAntisymm Point (fun x y => rotKey qs p₀ x < rotKey qs p₀ y) :=
    ⟨fun a b h1 h2 => absurd (Nat.lt_trans h1 h2) (Nat.lt_irrefl _)⟩
  have hBeq : (midFull.filter fun u => decide (0 < cross pN p₀ u)) =
      midFull.filter fun u => !(decide (0 < cross p₀ pN u)) := by
    apply List.filter_congr
    intro z hz
    obtain ⟨hzq, h0z, hzN⟩ := hmid z hz
    have hne : cross p₀ pN z ≠ 0 :=
      cross_ne_zero hq hp₀ hpN hzq h0N.ne (Ne.symm hzN.ne) h0z.ne
    have hsw : cross pN p₀ z = -cross p₀ pN z := by
      unfold cross; ring
    rcases hne.lt_or_lt with h | h
    · have h1 : 0 < cross pN p₀ z := by linarith
      have h2 : ¬ 0 < cross p₀ pN z := by linarith
      simp [h1, h2]
    · have h1 : ¬ 0 < cross pN p₀ z := by linarith
      simp [h1, h]
  have hmidperm : List.Perm midFull
      ((midFull.filter fun u => decide (0 < cross p₀ pN u)) ++
        (midFull.filter fun u => decide (0 < cross pN p₀ u))) := by
    rw [hBeq]
    exact (List.filter_append_perm _ midFull).symm
  have hchain : List.Perm ((p₀ :: midFull) ++ [pN])
      (p₀ :: ((midFull.filter fun u => decide (0 < cross pN p₀ u)) ++
        (pN :: (midFull.filter fun u => decide (0 < cross p₀ pN u)).reverse))) := by
    rw [List.cons_append]
    apply List.Perm.cons
    have s1 : List.Perm (midFull ++ [pN]) (pN :: midFull) :=
      List.perm_append_singleton _ _
    have s2 : List.Perm (pN :: midFull)
        (pN :: ((midFull.filter fun u => decide (0 < cross p₀ pN u)) ++
          (midFull.filter fun u => decide (0 < cross pN p₀ u)))) :=
      List.Perm.cons _ hmidperm
    have s3 : List.Perm
        ((midFull.filter fun u => decide (0 < cross p₀ pN u)) ++
          (midFull.filter fun u => decide (0 < cross pN p₀ u)))
        ((midFull.filter fun u => decide (0 < cross pN p₀ u)) ++
          (midFull.filter fun u => decide (0 < cross p₀ pN u)).reverse) := by
      refine List.perm_append_comm.trans ?_
      exact List.Perm.append_left _ (List.reverse_perm _).symm
    have s4 : List.Perm
        (pN :: ((midFull.filter fun u => decide (0 < cross pN p₀ u)) ++
          (midFull.filter fun u => decide (0 < cross p₀ pN u)).reverse))
        ((midFull.filter fun u => decide (0 < cross pN p₀ u)) ++
          (pN :: (midFull.filter fun u => decide (0 < cross p₀ pN u)).reverse)) :=
      List.perm_middle.symm
    exact ((s1.trans s2).trans (List.Perm.cons _ s3)).trans s4
  exact List.eq_of_perm_of_sorted
    ((qs.rotate_perm _).trans (hperm.symm.trans hchain))
    (sorted_rotate hq hp₀)
    (sorted_chains hq hp₀ hpN hmid hmid_asc h0N)

/-- C5 (amended): on a comparator-sorted list of points that are exactly
the vertices of a strictly convex polygon given in counter-clockwise order
`qs`, `makeHullPresorted` returns all the vertices in clockwise cyclic
order: its REVERSE is a rotation of `qs`. -/
theorem makeHullPresorted_convex_reverse_rotate (ps qs : List Point)
    (hsorted : ps.Pairwise fun a b => pointComparator a b ≤ 0)
    (hq : ConvexCCW qs) (hperm : List.Perm ps qs) :
    ∃ r, (makeHullPresorted ps).reverse = qs.rotate r := by
  have hnd := hq.nodup
  have hpsnd : ps.Nodup := hperm.nodup_iff.mpr hnd
  have hlt : ps.Pairwise PtLt := by
    refine (hsorted.and hpsnd).imp ?_
    rintro a b ⟨h1, h2⟩
    exact ptLt_of_comparator h1 h2
  have hlen : 3 ≤ ps.length := by
    rw [hperm.length_eq]
    exact hq.1
  rcases hps : ps with _ | ⟨p₀, tail⟩
  · rw [hps] at hlen
    simp at hlen
  have htail : tail ≠ [] := by
    intro h
    rw [hps, h] at hlen
    simp at hlen
  have hdecomp : ps = (p₀ :: tail.dropLast) ++ [tail.getLast htail] := by
    rw [hps, List.cons_append]
    rw [List.dropLast_append_getLast htail]
  rw [hdecomp] at hlt
  have hsub : ∀ z ∈ (p₀ :: tail.dropLast) ++ [tail.getLast htail], z ∈ qs := by
    intro z hz
    rw [← hdecomp] at hz
    exact hperm.subset hz
  rw [List.pairwise_append] at hlt
  obtain ⟨hlt1, _, hlt3⟩ := hlt
  rw [List.pairwise_cons] at hlt1
  obtain ⟨h0mid, hmid_asc⟩ := hlt1
  have hp₀ : p₀ ∈ qs := hsub p₀ (by simp)
  have hpN : tail.getLast htail ∈ qs := hsub _ (by simp)
  have h0N : PtLt p₀ (tail.getLast htail) :=
    hlt3 p₀ (List.mem_cons_self _ _) _ (List.mem_singleton_self _)
  have hmid : ∀ z ∈ tail.dropLast,
      z ∈ qs ∧ PtLt p₀ z ∧ PtLt z (tail.getLast htail) := by
    intro z hz
    refine ⟨hsub z (by simp [hz]), h0mid z hz, ?_⟩
    exact hlt3 z (List.mem_cons_of_mem _ hz) _ (List.mem_singleton_self _)
  have hperm' : List.Perm ((p₀ :: tail.dropLast) ++ [tail.getLast htail]) qs := by
    rw [← hdecomp]
    exact hperm
  have hdecomp2 : p₀ :: tail = (p₀ :: tail.dropLast) ++ [tail.getLast htail] := by
    rw [List.cons_append, List.dropLast_append_getLast htail]
  rw [hdecomp2, makeHullPresorted_spec hq hp₀ hpN hmid hmid_asc h0N]
  refine ⟨qs.indexOf p₀ + 1, ?_⟩
  rw [← List.rotate_rotate,
    rotate_eq_chains hq hp₀ hpN hmid hmid_asc h0N hperm']
  have hrot1 : (p₀ ::
      ((tail.dropLast.filter fun u =>
          decide (0 < cross (tail.getLast htail) p₀ u)) ++
        (tail.getLast htail ::
          (tail.dropLast.filter fun u =>
            decide (0 < cross p₀ (tail.getLast htail) u)).reverse))).rotate 1 =
      ((tail.dropLast.filter fun u =>
          decide (0 < cross (tail.getLast htail) p₀ u)) ++
        (tail.getLast htail ::
          (tail.dropLast.filter fun u =>
            decide (0 < cross p₀ (tail.getLast htail) u)).reverse)) ++ [p₀] := by
    have := List.rotate_cons_succ
      ((tail.dropLast.filter fun u =>
          decide (0 < cross (tail.getLast htail) p₀ u)) ++
        (tail.getLast htail ::
          (tail.dropLast.filter fun u =>
            decide (0 < cross p₀ (tail.getLast htail) u)).reverse)) p₀ 0
    simpa using this
  rw [hrot1]
  simp [List.reverse_append, List.append_assoc]

def c5ps : List Point := [⟨0,0⟩, ⟨0,1⟩, ⟨1,0⟩, ⟨1,1⟩]

def c5qs : List Point := [⟨0,0⟩, ⟨1,0⟩, ⟨1,1⟩, ⟨0,1⟩]

lemma c5ps_sorted : c5ps.Pairwise fun a b => pointComparator a b ≤ 0 := by
  simp [c5ps, List.pairwise_cons, pointComparator]

lemma c5qs_convex : ConvexCCW c5qs := by
  constructor
  · norm_num [c5qs]
  · intro i j k h1 h2 h3
    simp only [c5qs, List.length_cons, List.length_nil] at h3
    interval_cases k <;> interval_cases j <;> interval_cases i <;>
      norm_num [c5qs, cross, List.get]

lemma c5_perm : List.Perm c5ps c5qs := by
  unfold c5ps c5qs
  refine List.Perm.cons _ ?_
  exact (List.Perm.swap _ _ _).trans (List.Perm.cons _ (List.Perm.swap _ _ _))

lemma c5_hull : makeHullPresorted c5ps = [⟨0,0⟩, ⟨0,1⟩, ⟨1,1⟩, ⟨1,0⟩] := by
  have hp₀ : (⟨0,0⟩ : Point) ∈ c5qs := by simp [c5qs]
  have hpN : (⟨1,1⟩ : Point) ∈ c5qs := by simp [c5qs]
  have hmid : ∀ z ∈ [(⟨0,1⟩ : Point), ⟨1,0⟩],
      z ∈ c5qs ∧ PtLt ⟨0,0⟩ z ∧ PtLt z ⟨1,1⟩ := by
    intro z hz
    simp only [List.mem_cons, List.mem_singleton] at hz
    rcases hz with rfl | rfl | h
    · refine ⟨by simp [c5qs], ?_, ?_⟩ <;> norm_num [PtLt]
    · refine ⟨by simp [c5qs], ?_, ?_⟩ <;> norm_num [PtLt]
    · cases h
  have hasc : ([(⟨0,1⟩ : Point), ⟨1,0⟩]).Pairwise PtLt := by
    norm_num [List.pairwise_cons, PtLt]
  have h0N : PtLt (⟨0,0⟩ : Point) ⟨1,1⟩ := by
    norm_num [PtLt]
  have h := makeHullPresorted_spec c5qs_convex hp₀ hpN hmid hasc h0N
  rw [show c5ps = ((⟨0,0⟩ : Point) :: [⟨0,1⟩, ⟨1,0⟩]) ++ [⟨1,1⟩] from rfl, h]
  norm_num [cross, List.filter_cons]

theorem makeHullPresorted_square_not_ccw_rotation :
    (c5ps.Pairwise fun a b => pointComparator a b ≤ 0) ∧
    ConvexCCW c5qs ∧ List.Perm c5ps c5qs ∧
    ∀ r, makeHullPresorted c5ps ≠ c5qs.rotate r := by
  refine ⟨c5ps_sorted, c5qs_convex, c5_perm, ?_⟩
  intro r
  rw [← List.rotate_mod, show c5qs.length = 4 from rfl, c5_hull]
  have h4 : r % 4 = 0 ∨ r % 4 = 1 ∨ r % 4 = 2 ∨ r % 4 = 3 := by omega
  rcases h4 with h | h | h | h <;> rw [h] <;> intro heq
  · rw [show c5qs.rotate 0 = [⟨0,0⟩, ⟨1,0⟩, ⟨1,1⟩, ⟨0,1⟩] from rfl] at heq
    norm_num at heq
  · rw [show c5qs.rotate 1 = [⟨1,0⟩, ⟨1,1⟩, ⟨0,1⟩, ⟨0,0⟩] from rfl] at heq
    norm_num at heq
  · rw [show c5qs.rotate 2 = [⟨1,1⟩, ⟨0,1⟩, ⟨0,0⟩, ⟨1,0⟩] from rfl] at heq
    norm_num at heq
  · rw [show c5qs.rotate 3 = [⟨0,1⟩, ⟨0,0⟩, ⟨1,0⟩, ⟨1,1⟩] from rfl] at heq
    norm_num at heq

theorem makeHullPresorted_convex_reverse_rotate_witness :
    ((c5ps.Pairwise fun a b => pointComparator a b ≤ 0) ∧
      ConvexCCW c5qs ∧ List.Perm c5ps c5qs) ∧
    ∃ r, (makeHullPresorted c5ps).reverse = c5qs.rotate r :=
  ⟨⟨c5ps_sorted, c5qs_convex, c5_perm⟩,
    makeHullPresorted_convex_reverse_rotate c5ps c5qs c5ps_sorted
      c5qs_convex c5_perm⟩

end ColorBlind
